import Mathlib

/-!
Verification of `substack_mention_tracker.py`.

The Python source is shallowly embedded: each core function of the script
(`fetch_search_page`, `fetch_all_results`, `group_by_month`, `group_by_day`,
`build_monthly_timeline`, `build_daily_timeline`, `compute_daily_engagement`,
`rolling_average`, `_extract_pub_name`) is translated into an executable Lean
definition.  Python ints are modelled as `Nat`/`Int`, Python floats as `ℚ`,
fallible code as `Except`/`Option`, and the external HTTP world as explicit
response functions.
-/

namespace SubstackTracker

/-!
## rolling_average

Python:
```
def rolling_average(values, window=7):
    result = []
    half = window // 2
    for i in range(len(values)):
        start = max(0, i - half)
        end = min(len(values), i + half + 1)
        chunk = values[start:end]
        result.append(sum(chunk) / len(chunk) if chunk else 0)
    return result
```
`max(0, i - half)` on Python ints coincides with truncated subtraction on `Nat`.
The slice `values[start:end]` (with `0 ≤ start` and `end ≤ len`) is
`(values.drop start).take (end - start)`.
-/

def rolling_average (values : List ℚ) (window : Nat) : List ℚ :=
  let half := window / 2
  (List.range values.length).map (fun i =>
    let start := i - half
    let stop := min values.length (i + half + 1)
    let chunk := (values.drop start).take (stop - start)
    if chunk = [] then 0 else chunk.sum / chunk.length)

lemma take_one_drop {α : Type _} (l : List α) (i : Nat) (h : i < l.length) :
    (l.drop i).take 1 = [l.get ⟨i, h⟩] := by
  induction l generalizing i with
  | nil => simp at h
  | cons a l ih =>
    cases i with
    | zero => simp
    | succ n =>
      have hn : n < l.length := by simpa using h
      simp only [List.drop_succ_cons, ih n hn, List.get_cons_succ]

lemma rolling_average_length (values : List ℚ) (window : Nat) :
    (rolling_average values window).length = values.length := by
  simp [rolling_average]

lemma rolling_average_half_zero (values : List ℚ) (window : Nat)
    (hw : window / 2 = 0) : rolling_average values window = values := by
  apply List.ext_getElem
  · simp [rolling_average]
  · intro i h1 h2
    simp only [rolling_average, hw, List.getElem_map, List.getElem_range,
      Nat.sub_zero]
    rw [rolling_average_length] at h1
    have hstop : min values.length (i + 0 + 1) = i + 1 := by omega
    have hchunk : (values.drop i).take (min values.length (i + 0 + 1) - i) =
        [values.get ⟨i, h2⟩] := by
      rw [hstop]
      have : i + 1 - i = 1 := by omega
      rw [this]
      exact take_one_drop values i h2
    simp [hchunk]

lemma rolling_average_mean (xs : List ℚ) (w : Nat) (hw : xs.length ≤ w / 2 + 1) :
    ∀ x ∈ rolling_average xs w, x = xs.sum / (xs.length : ℚ) := by
  intro x hx
  simp only [rolling_average, List.mem_map, List.mem_range] at hx
  obtain ⟨i, hi, rfl⟩ := hx
  have h1 : i - w / 2 = 0 := by omega
  have h2 : min xs.length (i + w / 2 + 1) = xs.length := by omega
  have hne : xs ≠ [] := by
    intro h
    subst h
    simp at hi
  simp only [h1, h2, List.drop_zero, Nat.sub_zero, List.take_length,
    if_neg hne]

/-- C6 counterexample: for `xs = [0, 0, 0, 6]` (length 4) and window `w = 5 > 4`,
the first output element of `rolling_average` is `0`, which differs from the
overall mean `3/2`; so a window merely larger than the series length does not
make every output element equal the overall mean. -/
theorem rolling_average_window_gt_len_counterexample :
    5 > ([0, 0, 0, 6] : List ℚ).length ∧
    ¬ (∀ x ∈ rolling_average ([0, 0, 0, 6] : List ℚ) 5,
        x = ([0, 0, 0, 6] : List ℚ).sum / (([0, 0, 0, 6] : List ℚ).length : ℚ)) := by
  constructor
  · simp
  · intro h
    have hval : rolling_average [0, 0, 0, 6] 5 = [0, 3/2, 3/2, 2] := by
      have hr : List.range 4 = [0, 1, 2, 3] := rfl
      simp only [rolling_average, List.length_cons, List.length_nil, hr,
        List.map_cons, List.map_nil]
      norm_num
      exact ⟨by simp, by simp⟩
    have h0 : (0 : ℚ) ∈ rolling_average ([0, 0, 0, 6] : List ℚ) 5 := by
      rw [hval]
      simp
    have := h 0 h0
    norm_num at this

/-- C6 (amended): `rolling_average` preserves the length of its input (empty
input yields empty output), and whenever `len(xs) ≤ w/2 + 1` (integer
division) — which `w > len(xs)` does not imply in general — every output
element equals the arithmetic mean of the whole series. -/
theorem rolling_average_len_and_mean (xs : List ℚ) (w : Nat) :
    (rolling_average xs w).length = xs.length ∧
    (xs = [] → rolling_average xs w = []) ∧
    (xs.length ≤ w / 2 + 1 →
      ∀ x ∈ rolling_average xs w, x = xs.sum / (xs.length : ℚ)) := by
  refine ⟨rolling_average_length xs w, ?_, rolling_average_mean xs w⟩
  intro h
  subst h
  simp [rolling_average]

/-- C6 witness: instantiation of the amended claim at `xs = [3, 0, 3]`,
`w = 4`: the output has length 3, and since `3 ≤ 4/2 + 1` every output
element equals the mean `2`. -/
theorem rolling_average_len_and_mean_witness :
    (rolling_average [(3 : ℚ), 0, 3] 4).length = 3 ∧
    (∀ x ∈ rolling_average [(3 : ℚ), 0, 3] 4, x = 2) := by
  have h := rolling_average_len_and_mean [(3 : ℚ), 0, 3] 4
  refine ⟨h.1, fun x hx => ?_⟩
  have := h.2.2 (by norm_num) x hx
  norm_num at this
  exact this

/-- C10: a window of 0 or 1 makes `rolling_average` the identity: each clipped
centered window contains exactly the element itself. -/
theorem rolling_average_window_le_one_id (xs : List ℚ) :
    rolling_average xs 0 = xs ∧ rolling_average xs 1 = xs :=
  ⟨rolling_average_half_zero xs 0 rfl, rolling_average_half_zero xs 1 rfl⟩

/-!
## fetch_search_page

Python (`fetch_search_page(query, page, max_retries)`):
```
backoff = INITIAL_BACKOFF            # 10.0
for attempt in range(max_retries + 1):
    resp = requests.get(...)
    if resp.status_code in (429, 502, 503):
        if attempt < max_retries:
            retry_after = resp.headers.get("Retry-After")
            if retry_after:
                try: wait_time = float(retry_after)
                except ValueError: wait_time = backoff
            else:
                wait_time = backoff
            time.sleep(wait_time)
            backoff *= 2
            continue
        else:
            resp.raise_for_status()
    resp.raise_for_status()
    return resp.json()
```
The HTTP world is a function from attempt index to response.  The
`Retry-After` header is `absent` (missing or falsy), `numeric q` (parses as a
float `q`), or `malformed` (present but `float()` raises `ValueError`).
`raise_for_status` raises exactly for statuses in `[400, 600)`; the raised
error carries the status code, modelled as `Except.error status`.  The list of
sleep durations performed is returned alongside the result.
-/

structure Post where
  id : Option Int := none
  post_date : Option String := none
  reaction_count : Option Int := none
deriving DecidableEq

structure SearchPage where
  results : List Post
  more : Bool
deriving DecidableEq

inductive RetryAfter where
  | absent
  | numeric (q : ℚ)
  | malformed
deriving DecidableEq

structure HttpResp where
  status : Nat
  retryAfter : RetryAfter
  body : SearchPage

def isRetryable (s : Nat) : Bool :=
  s == 429 || s == 502 || s == 503

def fetchRetryLoop (resp : Nat → HttpResp) (maxRetries attempt : Nat)
    (backoff : ℚ) (sleeps : List ℚ) : Except Nat SearchPage × List ℚ :=
  let r := resp attempt
  if isRetryable r.status then
    if _h : attempt < maxRetries then
      let waitTime : ℚ :=
        match r.retryAfter with
        | RetryAfter.numeric q => q
        | _ => backoff
      fetchRetryLoop resp maxRetries (attempt + 1) (backoff * 2)
        (sleeps ++ [waitTime])
    else
      (Except.error r.status, sleeps)
  else if 400 ≤ r.status ∧ r.status < 600 then
    (Except.error r.status, sleeps)
  else
    (Except.ok r.body, sleeps)
termination_by maxRetries - attempt

def fetch_search_page (resp : Nat → HttpResp) (maxRetries : Nat) :
    Except Nat SearchPage × List ℚ :=
  fetchRetryLoop resp maxRetries 0 10 []

/-- The wait durations performed for `k` consecutive retryable responses
starting at attempt `attempt` with current backoff `backoff`: the numeric
`Retry-After` value when available, else the backoff, which doubles after
every retry. -/
def backoffWaits (resp : Nat → HttpResp) : Nat → Nat → ℚ → List ℚ
  | _, 0, _ => []
  | attempt, k + 1, backoff =>
      (match (resp attempt).retryAfter with
       | RetryAfter.numeric q => q
       | _ => backoff) :: backoffWaits resp (attempt + 1) k (backoff * 2)

lemma fetchRetryLoop_clean (resp : Nat → HttpResp) (m : Nat) :
    ∀ (k attempt : Nat) (backoff : ℚ) (sleeps : List ℚ),
    attempt + k ≤ m →
    (∀ i, i < k → isRetryable (resp (attempt + i)).status = true) →
    isRetryable (resp (attempt + k)).status = false →
    ¬ (400 ≤ (resp (attempt + k)).status ∧ (resp (attempt + k)).status < 600) →
    fetchRetryLoop resp m attempt backoff sleeps =
      (Except.ok (resp (attempt + k)).body,
        sleeps ++ backoffWaits resp attempt k backoff) := by
  intro k
  induction k with
  | zero =>
    intro attempt backoff sleeps _ _ hclean hok
    rw [fetchRetryLoop]
    simp only [Nat.add_zero] at hclean hok
    simp [hclean, hok, backoffWaits]
  | succ k ih =>
    intro attempt backoff sleeps hle hretry hclean hok
    rw [fetchRetryLoop]
    have h0 : isRetryable (resp attempt).status = true := by
      have := hretry 0 (Nat.succ_pos k)
      simpa using this
    have hlt : attempt < m := by omega
    simp only [h0, if_true, dif_pos hlt]
    have := ih (attempt + 1) (backoff * 2) (sleeps ++
        [(match (resp attempt).retryAfter with
          | RetryAfter.numeric q => q
          | _ => backoff)])
      (by omega)
      (fun i hi => by
        have := hretry (i + 1) (by omega)
        simpa [Nat.add_assoc, Nat.add_comm 1 i] using this)
      (by
        have h' : attempt + 1 + k = attempt + (k + 1) := by omega
        rw [h']
        exact hclean)
      (by
        have h' : attempt + 1 + k = attempt + (k + 1) := by omega
        rw [h']
        exact hok)
    rw [this]
    have h' : attempt + 1 + k = attempt + (k + 1) := by omega
    rw [h']
    simp [backoffWaits, List.append_assoc]

lemma fetchRetryLoop_exhaust (resp : Nat → HttpResp) (m : Nat) :
    ∀ (k attempt : Nat) (backoff : ℚ) (sleeps : List ℚ),
    attempt + k = m →
    (∀ i, i ≤ k → isRetryable (resp (attempt + i)).status = true) →
    fetchRetryLoop resp m attempt backoff sleeps =
      (Except.error (resp m).status,
        sleeps ++ backoffWaits resp attempt k backoff) := by
  intro k
  induction k with
  | zero =>
    intro attempt backoff sleeps hm hretry
    rw [fetchRetryLoop]
    have h0 : isRetryable (resp attempt).status = true := by
      simpa using hretry 0 (Nat.le_refl 0)
    have : ¬ attempt < m := by omega
    subst hm
    simp [h0, this, backoffWaits]
  | succ k ih =>
    intro attempt backoff sleeps hm hretry
    rw [fetchRetryLoop]
    have h0 : isRetryable (resp attempt).status = true := by
      simpa using hretry 0 (Nat.zero_le _)
    have hlt : attempt < m := by omega
    simp only [h0, if_true, dif_pos hlt]
    have := ih (attempt + 1) (backoff * 2) (sleeps ++
        [(match (resp attempt).retryAfter with
          | RetryAfter.numeric q => q
          | _ => backoff)])
      (by omega)
      (fun i hi => by
        have := hretry (i + 1) (by omega)
        simpa [Nat.add_assoc, Nat.add_comm 1 i] using this)
    rw [this]
    simp [backoffWaits, List.append_assoc]

lemma backoffWaits_no_header (resp : Nat → HttpResp) :
    ∀ (k a : Nat) (b : ℚ),
    (∀ i q, i < k → (resp (a + i)).retryAfter ≠ RetryAfter.numeric q) →
    backoffWaits resp a k b = (List.range k).map (fun i => b * 2 ^ i) := by
  intro k
  induction k with
  | zero => intro a b _; simp [backoffWaits]
  | succ k ih =>
    intro a b hnum
    have hrec := ih (a + 1) (b * 2) (fun i q hi => by
      have := hnum (i + 1) q (by omega)
      simpa [Nat.add_assoc, Nat.add_comm 1 i] using this)
    have hhead :
        (match (resp a).retryAfter with
         | RetryAfter.numeric q => q
         | _ => b) = b := by
      cases hra : (resp a).retryAfter with
      | absent => rfl
      | malformed => rfl
      | numeric q =>
        exact absurd hra (hnum 0 q (Nat.succ_pos k))
    rw [backoffWaits, hhead, hrec, List.range_succ_eq_map, List.map_cons,
      List.map_map]
    congr 1
    · simp
    · apply List.map_congr_left
      intro i _
      simp only [Function.comp_apply, pow_succ]
      ring

/-- The concrete response sequence of the spec scenario: three 429s with no
`Retry-After` header, then a 200 with body `p`. -/
def scenarioResp (p : SearchPage) : Nat → HttpResp := fun i =>
  if i < 3 then
    { status := 429, retryAfter := RetryAfter.absent,
      body := { results := [], more := false } }
  else
    { status := 200, retryAfter := RetryAfter.absent, body := p }

/-- C1: on HTTP 429/502/503, `fetch_search_page` retries up to `max_retries`
additional times, waiting before each retry the numeric `Retry-After` value
when present, else the exponentially doubling backoff starting at 10; if all
`max_retries` retries also fail with such a status it raises the HTTP error
(modelled as `Except.error status`); without `Retry-After` headers the waits
are exactly `10 * 2 ^ i`; and in the concrete scenario of three 429s followed
by a success with `max_retries = 5`, it returns the successful page's body
having slept 3 times with non-decreasing durations `[10, 20, 40]`. -/
theorem fetch_search_page_retry_policy (resp : Nat → HttpResp) (m k : Nat) :
    (k ≤ m → (∀ i, i < k → isRetryable (resp i).status = true) →
      isRetryable (resp k).status = false → (resp k).status < 400 →
      fetch_search_page resp m =
        (Except.ok (resp k).body, backoffWaits resp 0 k 10)) ∧
    ((∀ i, i ≤ m → isRetryable (resp i).status = true) →
      fetch_search_page resp m =
        (Except.error (resp m).status, backoffWaits resp 0 m 10)) ∧
    ((∀ i q, i < k → (resp i).retryAfter ≠ RetryAfter.numeric q) →
      backoffWaits resp 0 k 10 = (List.range k).map (fun i => 10 * 2 ^ i)) ∧
    (∀ p : SearchPage,
      fetch_search_page (scenarioResp p) 5 = (Except.ok p, [10, 20, 40]) ∧
      3 ≤ ([(10 : ℚ), 20, 40]).length ∧
      List.Chain' (· ≤ ·) [(10 : ℚ), 20, 40]) := by
  refine ⟨?_, ?_, ?_, ?_⟩
  · intro hk hretry hclean hst
    have := fetchRetryLoop_clean resp m k 0 10 [] (by omega)
      (fun i hi => by simpa using hretry i hi)
      (by simpa using hclean)
      (by simp only [Nat.zero_add]; omega)
    simpa [fetch_search_page] using this
  · intro hretry
    have := fetchRetryLoop_exhaust resp m m 0 10 [] (by omega)
      (fun i hi => by simpa using hretry i hi)
    simpa [fetch_search_page] using this
  · intro hnum
    exact backoffWaits_no_header resp k 0 10 (fun i q hi => by
      simpa using hnum i q hi)
  · intro p
    refine ⟨?_, by norm_num, by norm_num⟩
    have := fetchRetryLoop_clean (scenarioResp p) 5 3 0 10 [] (by omega)
      (fun i hi => by interval_cases i <;> rfl)
      (by rfl) (by norm_num [scenarioResp])
    have hw : backoffWaits (scenarioResp p) 0 3 10 = [10, 20, 40] := by
      norm_num [backoffWaits, scenarioResp]
    simpa [fetch_search_page, hw, scenarioResp] using this

/-- C1 witness: the retry policy theorem applied to the concrete scenario
response sequence (three 429s, then success) with `max_retries = 5`. -/
theorem fetch_search_page_retry_policy_witness :
    fetch_search_page (scenarioResp { results := [], more := true }) 5 =
      (Except.ok ({ results := [], more := true } : SearchPage),
        [10, 20, 40]) := by
  have h :=
    (fetch_search_page_retry_policy
      (scenarioResp { results := [], more := true }) 5 3).1
      (by norm_num)
      (fun i hi => by interval_cases i <;> rfl)
      (by rfl)
      (by norm_num [scenarioResp])
  rw [h]
  norm_num [backoffWaits, scenarioResp]

/-!
## fetch_all_results

Python:
```
def fetch_all_results(query, max_pages=MAX_PAGES, delay=REQUEST_DELAY):
    all_results = []
    seen_ids = set()
    for page in range(max_pages):
        try:
            data = fetch_search_page(query, page)
        except requests.exceptions.HTTPError as exc:
            if exc.response is not None and exc.response.status_code in (400, 422, 502, 503):
                break
            if exc.response is not None and exc.response.status_code == 429:
                break
            raise
        results = data.get("results", [])
        if not results:
            break
        for post in results:
            pid = post.get("id")
            if pid and pid not in seen_ids:
                seen_ids.add(pid)
                all_results.append(post)
        has_more = data.get("more", False)
        if not has_more:
            break
        time.sleep(delay)
    return all_results
```
The page fetch is abstracted as a function from the page index to either a
parsed page or a raised HTTP error carrying its status.  A Python id value is
modelled as `Option Int`; the truthiness test `if pid` holds exactly for
`some n` with `n ≠ 0`.  The loop is structural on the number of remaining
iterations of `range(max_pages)`.  An event trace records each page request
and each inter-page `time.sleep(delay)` call.
-/

inductive Event where
  | fetchEv (page : Nat)
  | sleepEv
deriving DecidableEq

def dedupPosts (seen : List Int) (acc : List Post) : List Post → List Int × List Post
  | [] => (seen, acc)
  | p :: rest =>
    match p.id with
    | some n =>
      if n ≠ 0 ∧ n ∉ seen then dedupPosts (n :: seen) (acc ++ [p]) rest
      else dedupPosts seen acc rest
    | none => dedupPosts seen acc rest

def fetchAllLoop (fp : Nat → Except Nat SearchPage) :
    Nat → Nat → List Int → List Post → List Event →
      Except Nat (List Post) × List Event
  | page, remaining + 1, seen, acc, trace =>
    (match fp page with
     | Except.error s =>
       if s = 400 ∨ s = 422 ∨ s = 502 ∨ s = 503 then
         (Except.ok acc, trace ++ [Event.fetchEv page])
       else if s = 429 then
         (Except.ok acc, trace ++ [Event.fetchEv page])
       else
         (Except.error s, trace ++ [Event.fetchEv page])
     | Except.ok data =>
       if data.results = [] then
         (Except.ok acc, trace ++ [Event.fetchEv page])
       else
         let sa := dedupPosts seen acc data.results
         if data.more then
           fetchAllLoop fp (page + 1) remaining sa.1 sa.2
             (trace ++ [Event.fetchEv page, Event.sleepEv])
         else
           (Except.ok sa.2, trace ++ [Event.fetchEv page]))
  | _, 0, _, acc, trace => (Except.ok acc, trace)

def fetch_all_results (fp : Nat → Except Nat SearchPage) (maxPages : Nat) :
    Except Nat (List Post) × List Event :=
  fetchAllLoop fp 0 maxPages [] [] []

/-- The raw result list served for page `i` (`[]` if the fetch raises). -/
def pageResults (fp : Nat → Except Nat SearchPage) (i : Nat) : List Post :=
  match fp i with
  | Except.ok d => d.results
  | Except.error _ => []

/-- Deduplicated records collected from pages `0 .. k-1`: the dedup fold of
`fetch_all_results` applied to the concatenated raw results of those pages. -/
def collectedUpTo (fp : Nat → Except Nat SearchPage) (k : Nat) : List Post :=
  (dedupPosts [] [] (((List.range k).map (pageResults fp)).flatten)).2

lemma dedupPosts_append (seen : List Int) (acc : List Post) (xs ys : List Post) :
    dedupPosts seen acc (xs ++ ys) =
      dedupPosts (dedupPosts seen acc xs).1 (dedupPosts seen acc xs).2 ys := by
  induction xs generalizing seen acc with
  | nil => simp [dedupPosts]
  | cons p rest ih =>
    cases hid : p.id with
    | none =>
      simp only [List.cons_append, dedupPosts, hid]
      exact ih _ _
    | some n =>
      by_cases hc : n ≠ 0 ∧ n ∉ seen
      · simp only [List.cons_append, dedupPosts, hid, if_pos hc]
        exact ih _ _
      · simp only [List.cons_append, dedupPosts, hid, if_neg hc]
        exact ih _ _

/-- Concatenated raw results of the `k` pages starting at `page`. -/
def segResults (fp : Nat → Except Nat SearchPage) (page k : Nat) : List Post :=
  ((List.range k).map (fun i => pageResults fp (page + i))).flatten

lemma segResults_zero_start (fp : Nat → Except Nat SearchPage) (k : Nat) :
    segResults fp 0 k = ((List.range k).map (pageResults fp)).flatten := by
  simp [segResults]

lemma segResults_succ (fp : Nat → Except Nat SearchPage) (page k : Nat) :
    segResults fp page (k + 1) =
      pageResults fp page ++ segResults fp (page + 1) k := by
  simp only [segResults, List.range_succ_eq_map, List.map_cons,
    List.flatten_cons, List.map_map, Nat.add_zero]
  congr 2
  apply List.map_congr_left
  intro i _
  simp only [Function.comp_apply]
  congr 1
  omega

lemma fetchAllLoop_prefix_error (fp : Nat → Except Nat SearchPage) :
    ∀ (k page remaining : Nat) (seen : List Int) (acc : List Post)
      (trace : List Event) (s : Nat),
    k < remaining →
    (∀ i, i < k →
      ∃ d, fp (page + i) = Except.ok d ∧ d.results ≠ [] ∧ d.more = true) →
    fp (page + k) = Except.error s →
    (fetchAllLoop fp page remaining seen acc trace).1 =
      (if s = 400 ∨ s = 422 ∨ s = 502 ∨ s = 503 ∨ s = 429 then
        Except.ok (dedupPosts seen acc (segResults fp page k)).2
      else Except.error s) := by
  intro k
  induction k with
  | zero =>
    intro page remaining seen acc trace s hlt hpre herr
    obtain ⟨r, rfl⟩ : ∃ r, remaining = r + 1 := ⟨remaining - 1, by omega⟩
    rw [Nat.add_zero] at herr
    simp only [fetchAllLoop, herr, segResults, List.range_zero, List.map_nil,
      List.flatten_nil, dedupPosts]
    by_cases h4 : s = 400 ∨ s = 422 ∨ s = 502 ∨ s = 503
    · rw [if_pos h4, if_pos (by tauto)]
    · rw [if_neg h4]
      by_cases h9 : s = 429
      · rw [if_pos h9, if_pos (by tauto)]
      · rw [if_neg h9, if_neg (by tauto)]
  | succ k ih =>
    intro page remaining seen acc trace s hlt hpre herr
    obtain ⟨r, rfl⟩ : ∃ r, remaining = r + 1 := ⟨remaining - 1, by omega⟩
    obtain ⟨d, hok, hres, hmore⟩ := by
      simpa using hpre 0 (Nat.succ_pos k)
    simp only [fetchAllLoop, hok, if_neg hres, hmore, if_true]
    have hrec := ih (page + 1) r
      (dedupPosts seen acc d.results).1 (dedupPosts seen acc d.results).2
      (trace ++ [Event.fetchEv page, Event.sleepEv]) s
      (by omega)
      (fun i hi => by
        have := hpre (i + 1) (by omega)
        simpa [Nat.add_assoc, Nat.add_comm 1 i] using this)
      (by
        have h' : page + 1 + k = page + (k + 1) := by omega
        rw [h']
        exact herr)
    rw [hrec]
    have hseg : dedupPosts seen acc (segResults fp page (k + 1)) =
        dedupPosts (dedupPosts seen acc d.results).1
          (dedupPosts seen acc d.results).2 (segResults fp (page + 1) k) := by
      rw [segResults_succ]
      have hpr : pageResults fp page = d.results := by
        simp [pageResults, hok]
      rw [hpr, dedupPosts_append]
    rw [hseg]

/-- C2: if pages `0 .. k-1` all succeed (with nonempty results and
`more = true`, so pagination reaches page `k`) and the fetch of page `k`
raises an HTTP error with status 400, 422, 502 or 503 (and in particular
422), `fetch_all_results` returns exactly the deduplicated records collected
from pages `0 .. k-1` without raising; an error status outside
`{400, 422, 429, 502, 503}` is propagated to the caller instead. -/
theorem fetch_all_results_page_limit (fp : Nat → Except Nat SearchPage)
    (maxPages k s : Nat)
    (hk : k < maxPages)
    (hpre : ∀ i, i < k →
      ∃ d, fp i = Except.ok d ∧ d.results ≠ [] ∧ d.more = true)
    (herr : fp k = Except.error s) :
    ((s = 400 ∨ s = 422 ∨ s = 502 ∨ s = 503) →
      (fetch_all_results fp maxPages).1 = Except.ok (collectedUpTo fp k)) ∧
    ((s ≠ 400 ∧ s ≠ 422 ∧ s ≠ 429 ∧ s ≠ 502 ∧ s ≠ 503) →
      (fetch_all_results fp maxPages).1 = Except.error s) := by
  have h := fetchAllLoop_prefix_error fp k 0 maxPages [] [] [] s hk
    (fun i hi => by simpa using hpre i hi)
    (by simpa using herr)
  constructor
  · intro hs
    rw [fetch_all_results, h, if_pos (by tauto)]
    rw [collectedUpTo, ← segResults_zero_start]
  · intro hs
    rw [fetch_all_results, h, if_neg (by tauto)]

/-- C2 witness: two successful pages (ids 1 and 2) followed by a 422 on
page 2 yield exactly the two collected posts; the same prefix followed by a
500 propagates the error. -/
theorem fetch_all_results_page_limit_witness :
    (fetch_all_results
      (fun i => if i = 0 then Except.ok { results := [{ id := some 1 }], more := true }
        else if i = 1 then Except.ok { results := [{ id := some 2 }], more := true }
        else Except.error 422) 10).1 =
      Except.ok [{ id := some 1 }, { id := some 2 }] ∧
    (fetch_all_results
      (fun i => if i = 0 then Except.ok { results := [{ id := some 1 }], more := true }
        else Except.error 500) 10).1 = Except.error 500 := by
  constructor
  · have h := (fetch_all_results_page_limit
      (fun i => if i = 0 then Except.ok { results := [{ id := some 1 }], more := true }
        else if i = 1 then Except.ok { results := [{ id := some 2 }], more := true }
        else Except.error 422) 10 2 422
      (by omega)
      (fun i hi => by
        interval_cases i
        · exact ⟨_, rfl, by simp, rfl⟩
        · exact ⟨_, rfl, by simp, rfl⟩)
      (by rfl)).1 (by tauto)
    rw [h]
    rfl
  · have h := (fetch_all_results_page_limit
      (fun i => if i = 0 then Except.ok { results := [{ id := some 1 }], more := true }
        else Except.error 500) 10 1 500
      (by omega)
      (fun i hi => by
        interval_cases i
        exact ⟨_, rfl, by simp, rfl⟩)
      (by rfl)).2 (by norm_num)
    rw [h]

/-- The identifiers carried by a list of posts, in order. -/
def idsOf (posts : List Post) : List Int := posts.filterMap Post.id

/-- First occurrences, in order, of identifiers not already seen. -/
def freshIds (seen : List Int) : List Int → List Int
  | [] => []
  | n :: rest =>
    if n ∈ seen then freshIds seen rest
    else n :: freshIds (n :: seen) rest

def countFetches (tr : List Event) : Nat :=
  (tr.filter (fun e =>
    match e with
    | Event.fetchEv _ => true
    | Event.sleepEv => false)).length

/-- Concatenated raw results of all `mp` pages. -/
def allResults (fp : Nat → Except Nat SearchPage) (mp : Nat) : List Post :=
  ((List.range mp).map (pageResults fp)).flatten

lemma freshIds_mem : ∀ (ids seen : List Int) (m : Int),
    m ∈ freshIds seen ids → m ∉ seen ∧ m ∈ ids := by
  intro ids
  induction ids with
  | nil => intro seen m h; simp [freshIds] at h
  | cons n rest ih =>
    intro seen m h
    by_cases hn : n ∈ seen
    · rw [freshIds, if_pos hn] at h
      obtain ⟨h1, h2⟩ := ih seen m h
      exact ⟨h1, List.mem_cons_of_mem n h2⟩
    · rw [freshIds, if_neg hn] at h
      rcases List.mem_cons.mp h with rfl | h
      · exact ⟨hn, List.mem_cons_self _ _⟩
      · obtain ⟨h1, h2⟩ := ih (n :: seen) m h
        refine ⟨fun hc => h1 (List.mem_cons_of_mem n hc), List.mem_cons_of_mem n h2⟩

lemma freshIds_nodup : ∀ (ids seen : List Int), (freshIds seen ids).Nodup := by
  intro ids
  induction ids with
  | nil => intro seen; simp [freshIds]
  | cons n rest ih =>
    intro seen
    by_cases hn : n ∈ seen
    · rw [freshIds, if_pos hn]; exact ih seen
    · rw [freshIds, if_neg hn]
      refine List.nodup_cons.mpr ⟨fun hc => ?_, ih (n :: seen)⟩
      exact (freshIds_mem rest (n :: seen) n hc).1 (List.mem_cons_self _ _)

lemma freshIds_toFinset : ∀ (ids seen : List Int),
    (freshIds seen ids).toFinset = ids.toFinset \ seen.toFinset := by
  intro ids
  induction ids with
  | nil => intro seen; simp [freshIds]
  | cons n rest ih =>
    intro seen
    by_cases hn : n ∈ seen
    · rw [freshIds, if_pos hn, ih seen]
      ext m
      simp only [Finset.mem_sdiff, List.mem_toFinset, List.mem_cons]
      constructor
      · rintro ⟨h1, h2⟩; exact ⟨Or.inr h1, h2⟩
      · rintro ⟨h1 | h1, h2⟩
        · subst h1
          exact absurd hn h2
        · exact ⟨h1, h2⟩
    · rw [freshIds, if_neg hn]
      simp only [List.toFinset_cons, ih (n :: seen)]
      ext m
      simp only [Finset.mem_insert, Finset.mem_sdiff, List.mem_toFinset,
        List.mem_cons, List.toFinset_cons]
      by_cases hm : m = n
      · subst hm
        simp [hn]
      · simp [hm]

lemma freshIds_length (ids : List Int) :
    (freshIds [] ids).length = ids.toFinset.card := by
  have h1 := freshIds_nodup ids []
  have h2 := freshIds_toFinset ids []
  rw [← List.toFinset_card_of_nodup h1, h2]
  simp

lemma dedupPosts_map_id : ∀ (posts : List Post) (seen : List Int) (acc : List Post),
    (∀ p ∈ posts, ∃ n, p.id = some n ∧ n ≠ 0) →
    (dedupPosts seen acc posts).2.map Post.id =
      acc.map Post.id ++ (freshIds seen (idsOf posts)).map some := by
  intro posts
  induction posts with
  | nil => intro seen acc _; simp [dedupPosts, idsOf, freshIds]
  | cons p rest ih =>
    intro seen acc hids
    obtain ⟨n, hn, hn0⟩ := hids p (List.mem_cons_self _ _)
    have hrest : ∀ q ∈ rest, ∃ m, q.id = some m ∧ m ≠ 0 :=
      fun q hq => hids q (List.mem_cons_of_mem p hq)
    have hidsOf : idsOf (p :: rest) = n :: idsOf rest := by
      simp [idsOf, List.filterMap_cons, hn]
    by_cases hseen : n ∈ seen
    · have hcond : ¬ (n ≠ 0 ∧ n ∉ seen) := by tauto
      simp only [dedupPosts, hn]
      rw [if_neg hcond, ih seen acc hrest, hidsOf, freshIds, if_pos hseen]
    · simp only [dedupPosts, hn]
      rw [if_pos ⟨hn0, hseen⟩, ih (n :: seen) (acc ++ [p]) hrest,
        hidsOf, freshIds, if_neg hseen]
      simp [hn]

lemma dedupPosts_inv : ∀ (posts : List Post) (seen : List Int) (acc : List Post),
    (∀ p ∈ acc, ∃ n, p.id = some n ∧ n ∈ seen) →
    (acc.map Post.id).Nodup →
    (∀ p ∈ (dedupPosts seen acc posts).2,
      ∃ n, p.id = some n ∧ n ∈ (dedupPosts seen acc posts).1) ∧
    ((dedupPosts seen acc posts).2.map Post.id).Nodup ∧
    (dedupPosts seen acc posts).2.length ≤ acc.length + posts.length := by
  intro posts
  induction posts with
  | nil =>
    intro seen acc hinv hnd
    simpa [dedupPosts] using ⟨hinv, hnd⟩
  | cons p rest ih =>
    intro seen acc hinv hnd
    cases hid : p.id with
    | none =>
      simp only [dedupPosts, hid]
      have := ih seen acc hinv hnd
      refine ⟨this.1, this.2.1, ?_⟩
      have := this.2.2
      simp only [List.length_cons]
      omega
    | some n =>
      simp only [dedupPosts, hid]
      by_cases hc : n ≠ 0 ∧ n ∉ seen
      · rw [if_pos hc]
        have hinv' : ∀ q ∈ acc ++ [p], ∃ m, q.id = some m ∧ m ∈ n :: seen := by
          intro q hq
          rcases List.mem_append.mp hq with hq | hq
          · obtain ⟨m, hm1, hm2⟩ := hinv q hq
            exact ⟨m, hm1, List.mem_cons_of_mem n hm2⟩
          · rcases List.mem_singleton.mp hq with rfl
            exact ⟨n, hid, List.mem_cons_self _ _⟩
        have hnd' : ((acc ++ [p]).map Post.id).Nodup := by
          rw [List.map_append]
          refine List.Nodup.append hnd (by simp) ?_
          intro x hx hx'
          simp only [List.map_cons, List.map_nil, List.mem_singleton, hid] at hx'
          subst hx'
          obtain ⟨q, hq, hq'⟩ := List.mem_map.mp hx
          obtain ⟨m, hm1, hm2⟩ := hinv q hq
          rw [hm1] at hq'
          obtain rfl : m = n := by simpa using hq'
          exact hc.2 hm2
        have := ih (n :: seen) (acc ++ [p]) hinv' hnd'
        refine ⟨this.1, this.2.1, ?_⟩
        have h3 := this.2.2
        have hlen : (acc ++ [p]).length = acc.length + 1 := by simp
        simp only [List.length_cons]
        omega
      · rw [if_neg hc]
        have := ih seen acc hinv hnd
        refine ⟨this.1, this.2.1, ?_⟩
        have := this.2.2
        simp only [List.length_cons]
        omega

lemma fetchAllLoop_ok_props (fp : Nat → Except Nat SearchPage) :
    ∀ (remaining page : Nat) (seen : List Int) (acc : List Post)
      (trace : List Event) (l : List Post) (tr : List Event),
    (∀ p ∈ acc, ∃ n, p.id = some n ∧ n ∈ seen) →
    (acc.map Post.id).Nodup →
    fetchAllLoop fp page remaining seen acc trace = (Except.ok l, tr) →
    (l.map Post.id).Nodup ∧
    l.length ≤ acc.length + (segResults fp page remaining).length := by
  intro remaining
  induction remaining with
  | zero =>
    intro page seen acc trace l tr hinv hnd heq
    simp only [fetchAllLoop, Prod.mk.injEq, Except.ok.injEq] at heq
    obtain ⟨rfl, rfl⟩ := heq
    exact ⟨hnd, by omega⟩
  | succ r ih =>
    intro page seen acc trace l tr hinv hnd heq
    have hseg : (segResults fp page (r + 1)).length =
        (pageResults fp page).length + (segResults fp (page + 1) r).length := by
      rw [segResults_succ]
      simp
    cases hfp : fp page with
    | error s =>
      simp only [fetchAllLoop, hfp] at heq
      by_cases h4 : s = 400 ∨ s = 422 ∨ s = 502 ∨ s = 503
      · rw [if_pos h4] at heq
        simp only [Prod.mk.injEq, Except.ok.injEq] at heq
        obtain ⟨rfl, rfl⟩ := heq
        exact ⟨hnd, by omega⟩
      · rw [if_neg h4] at heq
        by_cases h9 : s = 429
        · rw [if_pos h9] at heq
          simp only [Prod.mk.injEq, Except.ok.injEq] at heq
          obtain ⟨rfl, rfl⟩ := heq
          exact ⟨hnd, by omega⟩
        · rw [if_neg h9] at heq
          simp at heq
    | ok d =>
      simp only [fetchAllLoop, hfp] at heq
      by_cases hres : d.results = []
      · rw [if_pos hres] at heq
        simp only [Prod.mk.injEq, Except.ok.injEq] at heq
        obtain ⟨rfl, rfl⟩ := heq
        exact ⟨hnd, by omega⟩
      · rw [if_neg hres] at heq
        have hdinv := dedupPosts_inv d.results seen acc hinv hnd
        have hpr : (pageResults fp page).length = d.results.length := by
          simp [pageResults, hfp]
        by_cases hmore : d.more = true
        · rw [if_pos hmore] at heq
          have := ih (page + 1)
            (dedupPosts seen acc d.results).1 (dedupPosts seen acc d.results).2
            (trace ++ [Event.fetchEv page, Event.sleepEv]) l tr
            hdinv.1 hdinv.2.1 heq
          refine ⟨this.1, ?_⟩
          have h1 := this.2
          have h2 := hdinv.2.2
          omega
        · rw [if_neg hmore] at heq
          simp only [Prod.mk.injEq, Except.ok.injEq] at heq
          obtain ⟨rfl, rfl⟩ := heq
          refine ⟨hdinv.2.1, ?_⟩
          have h2 := hdinv.2.2
          omega

lemma countFetches_append (a b : List Event) :
    countFetches (a ++ b) = countFetches a + countFetches b := by
  simp [countFetches, List.filter_append]

lemma fetchAllLoop_fetch_bound (fp : Nat → Except Nat SearchPage) :
    ∀ (remaining page : Nat) (seen : List Int) (acc : List Post)
      (trace : List Event),
    countFetches (fetchAllLoop fp page remaining seen acc trace).2 ≤
      countFetches trace + remaining := by
  intro remaining
  induction remaining with
  | zero =>
    intro page seen acc trace
    simp [fetchAllLoop]
  | succ r ih =>
    intro page seen acc trace
    cases hfp : fp page with
    | error s =>
      simp only [fetchAllLoop, hfp]
      split_ifs <;> simp [countFetches_append, countFetches]
    | ok d =>
      simp only [fetchAllLoop, hfp]
      by_cases hres : d.results = []
      · rw [if_pos hres]
        simp [countFetches_append, countFetches]
      · rw [if_neg hres]
        by_cases hmore : d.more = true
        · rw [if_pos hmore]
          have := ih (page + 1)
            (dedupPosts seen acc d.results).1 (dedupPosts seen acc d.results).2
            (trace ++ [Event.fetchEv page, Event.sleepEv])
          have hc : countFetches (trace ++ [Event.fetchEv page, Event.sleepEv]) =
              countFetches trace + 1 := by
            simp [countFetches_append, countFetches]
          omega
        · rw [if_neg hmore]
          simp [countFetches_append, countFetches]

lemma fetchAllLoop_full (fp : Nat → Except Nat SearchPage) :
    ∀ (remaining page : Nat) (seen : List Int) (acc : List Post)
      (trace : List Event),
    (∀ i, i < remaining →
      ∃ d, fp (page + i) = Except.ok d ∧ d.results ≠ [] ∧ d.more = true) →
    (fetchAllLoop fp page remaining seen acc trace).1 =
      Except.ok (dedupPosts seen acc (segResults fp page remaining)).2 := by
  intro remaining
  induction remaining with
  | zero =>
    intro page seen acc trace _
    simp [fetchAllLoop, segResults, dedupPosts]
  | succ r ih =>
    intro page seen acc trace hpre
    obtain ⟨d, hok, hres, hmore⟩ := by
      simpa using hpre 0 (Nat.succ_pos r)
    simp only [fetchAllLoop, hok, if_neg hres, hmore, if_true]
    have hrec := ih (page + 1)
      (dedupPosts seen acc d.results).1 (dedupPosts seen acc d.results).2
      (trace ++ [Event.fetchEv page, Event.sleepEv])
      (fun i hi => by
        have := hpre (i + 1) (by omega)
        simpa [Nat.add_assoc, Nat.add_comm 1 i] using this)
    rw [hrec]
    have hseg : dedupPosts seen acc (segResults fp page (r + 1)) =
        dedupPosts (dedupPosts seen acc d.results).1
          (dedupPosts seen acc d.results).2 (segResults fp (page + 1) r) := by
      rw [segResults_succ]
      have hpr : pageResults fp page = d.results := by
        simp [pageResults, hok]
      rw [hpr, dedupPosts_append]
    rw [hseg]

/-- C3: for every page-fetch function and page cap, a successful
`fetch_all_results` run returns a list with no duplicate identifiers whose
length is at most the sum of all page result counts; at most `max_pages`
pages are requested; and when every page succeeds with records all carrying
(truthy) identifiers, the returned identifiers are exactly the distinct
identifiers across all processed pages in first-seen order, so the length
equals the number of distinct identifiers. -/
theorem fetch_all_results_dedup_props (fp : Nat → Except Nat SearchPage)
    (mp : Nat) :
    (∀ l tr, fetch_all_results fp mp = (Except.ok l, tr) →
      (l.map Post.id).Nodup ∧
      l.length ≤ ((List.range mp).map (fun i => (pageResults fp i).length)).sum) ∧
    countFetches (fetch_all_results fp mp).2 ≤ mp ∧
    ((∀ i, i < mp → ∃ d, fp i = Except.ok d ∧ d.results ≠ [] ∧ d.more = true ∧
        ∀ p ∈ d.results, ∃ n, p.id = some n ∧ n ≠ 0) →
      ∃ l, (fetch_all_results fp mp).1 = Except.ok l ∧
        l.map Post.id = (freshIds [] (idsOf (allResults fp mp))).map some ∧
        l.length = (idsOf (allResults fp mp)).toFinset.card) := by
  have hseglen : (segResults fp 0 mp).length =
      ((List.range mp).map (fun i => (pageResults fp i).length)).sum := by
    rw [segResults_zero_start, List.length_flatten, List.map_map]
    rfl
  refine ⟨?_, ?_, ?_⟩
  · intro l tr heq
    have h := fetchAllLoop_ok_props fp mp 0 [] [] [] l tr
      (by simp) (by simp) heq
    refine ⟨h.1, ?_⟩
    have h2 := h.2
    simp only [List.length_nil, Nat.zero_add] at h2
    omega
  · have h := fetchAllLoop_fetch_bound fp mp 0 [] [] []
    simpa [fetch_all_results, countFetches] using h
  · intro hpre
    have hfull := fetchAllLoop_full fp mp 0 [] [] []
      (fun i hi => by
        obtain ⟨d, h1, h2, h3, _⟩ := hpre i hi
        exact ⟨d, by simpa using h1, h2, h3⟩)
    have hallids : ∀ p ∈ segResults fp 0 mp, ∃ n, p.id = some n ∧ n ≠ 0 := by
      intro p hp
      rw [segResults_zero_start] at hp
      obtain ⟨lp, hlp, hplp⟩ := List.mem_flatten.mp hp
      obtain ⟨i, hir, hpr⟩ := List.mem_map.mp hlp
      have hi := List.mem_range.mp hir
      subst hpr
      obtain ⟨d, h1, _, _, h4⟩ := hpre i hi
      have : pageResults fp i = d.results := by simp [pageResults, h1]
      rw [this] at hplp
      exact h4 p hplp
    have hmap := dedupPosts_map_id (segResults fp 0 mp) [] [] hallids
    have hall : allResults fp mp = segResults fp 0 mp :=
      (segResults_zero_start fp mp).symm
    refine ⟨(dedupPosts [] [] (segResults fp 0 mp)).2, ?_, ?_, ?_⟩
    · simpa [fetch_all_results] using hfull
    · rw [hall]
      simpa using hmap
    · have hlen : (dedupPosts [] [] (segResults fp 0 mp)).2.length =
          (freshIds [] (idsOf (segResults fp 0 mp))).length := by
        have := congrArg List.length hmap
        simpa using this
      rw [hall, hlen, freshIds_length]

/-- A page fetch serving the same post (id 7) twice, always with
`more = true`. -/
def dupFp : Nat → Except Nat SearchPage :=
  fun _ =>
    Except.ok { results := [{ id := some 7 }, { id := some 7 }], more := true }

/-- C3 witness: two pages each serving the same post (id 7) with `more=true`;
the run returns one post with id 7, matching the single distinct
identifier. -/
theorem fetch_all_results_dedup_props_witness :
    ∃ l, (fetch_all_results dupFp 2).1 = Except.ok l ∧
      l.map Post.id = (freshIds [] (idsOf (allResults dupFp 2))).map some ∧
      l.length = (idsOf (allResults dupFp 2)).toFinset.card := by
  refine (fetch_all_results_dedup_props dupFp 2).2.2
    (fun i hi => ⟨_, rfl, by simp [dupFp], rfl, ?_⟩)
  intro p hp
  simp only [dupFp] at hp
  rcases List.mem_cons.mp hp with rfl | hp
  · exact ⟨7, rfl, by norm_num⟩
  · rcases List.mem_singleton.mp hp with rfl
    exact ⟨7, rfl, by norm_num⟩

/-- Shape of the event segment emitted by the pagination loop: either empty,
a final page request, or a page request followed by the inter-page sleep and
a further segment. -/
inductive TraceOk : List Event → Prop where
  | nil : TraceOk []
  | last (p : Nat) : TraceOk [Event.fetchEv p]
  | step (p : Nat) (rest : List Event) :
      TraceOk rest → TraceOk (Event.fetchEv p :: Event.sleepEv :: rest)

lemma traceOk_sleep_pred : ∀ (seg : List Event), TraceOk seg →
    ∀ l1 l2, seg = l1 ++ Event.sleepEv :: l2 →
    ∃ q l0, l1 = l0 ++ [Event.fetchEv q] := by
  intro seg hok
  induction hok with
  | nil =>
    intro l1 l2 h
    exact absurd h.symm (by simp)
  | last p =>
    intro l1 l2 h
    cases l1 with
    | nil => simp at h
    | cons x l1' =>
      simp only [List.cons_append, List.cons.injEq] at h
      exact absurd h.2.symm (by simp)
  | step p rest _ ih =>
    intro l1 l2 h
    cases l1 with
    | nil => simp at h
    | cons x l1' =>
      simp only [List.cons_append, List.cons.injEq] at h
      obtain ⟨rfl, h⟩ := h
      cases l1' with
      | nil => exact ⟨p, [], by simp⟩
      | cons y l1'' =>
        simp only [List.cons_append, List.cons.injEq] at h
        obtain ⟨rfl, h⟩ := h
        obtain ⟨q, l0, rfl⟩ := ih l1'' l2 h
        exact ⟨q, Event.fetchEv p :: Event.sleepEv :: l0, by simp⟩

lemma fetchAllLoop_shape (fp : Nat → Except Nat SearchPage) :
    ∀ (remaining page : Nat) (seen : List Int) (acc : List Post)
      (trace : List Event),
    ∃ seg, (fetchAllLoop fp page remaining seen acc trace).2 = trace ++ seg ∧
      TraceOk seg ∧
      (remaining ≠ 0 → ∃ seg0, seg = Event.fetchEv page :: seg0) ∧
      (seg.getLast? = some Event.sleepEv →
        countFetches seg = remaining ∧
        ∃ d, fp (page + remaining - 1) = Except.ok d ∧
          d.results ≠ [] ∧ d.more = true) := by
  intro remaining
  induction remaining with
  | zero =>
    intro page seen acc trace
    refine ⟨[], by simp [fetchAllLoop], TraceOk.nil, by simp, by simp⟩
  | succ r ih =>
    intro page seen acc trace
    have hterm : ∀ tr' : List Event, tr' = trace ++ [Event.fetchEv page] →
        ∃ seg, tr' = trace ++ seg ∧ TraceOk seg ∧
          (r + 1 ≠ 0 → ∃ seg0, seg = Event.fetchEv page :: seg0) ∧
          (seg.getLast? = some Event.sleepEv →
            countFetches seg = r + 1 ∧
            ∃ d, fp (page + (r + 1) - 1) = Except.ok d ∧
              d.results ≠ [] ∧ d.more = true) := by
      intro tr' htr'
      exact ⟨[Event.fetchEv page], htr', TraceOk.last page,
        fun _ => ⟨[], rfl⟩, fun hlast => by simp at hlast⟩
    cases hfp : fp page with
    | error s =>
      simp only [fetchAllLoop, hfp]
      split_ifs <;> exact hterm _ rfl
    | ok d =>
      simp only [fetchAllLoop, hfp]
      by_cases hres : d.results = []
      · rw [if_pos hres]
        exact hterm _ rfl
      · rw [if_neg hres]
        by_cases hmore : d.more = true
        · rw [if_pos hmore]
          obtain ⟨seg', hseg', hok', hne', hlast'⟩ := ih (page + 1)
            (dedupPosts seen acc d.results).1 (dedupPosts seen acc d.results).2
            (trace ++ [Event.fetchEv page, Event.sleepEv])
          refine ⟨Event.fetchEv page :: Event.sleepEv :: seg', ?_,
            TraceOk.step page seg' hok', fun _ => ⟨_, rfl⟩, ?_⟩
          · rw [hseg']
            simp
          · intro hlast
            cases hseg0 : seg' with
            | nil =>
              have hr0 : r = 0 := by
                by_contra hr
                obtain ⟨seg0, hs⟩ := hne' hr
                rw [hseg0] at hs
                simp at hs
              subst hr0
              subst hseg0
              refine ⟨by simp [countFetches], d, ?_, hres, hmore⟩
              simpa using hfp
            | cons y ys =>
              have hlast2 : seg'.getLast? = some Event.sleepEv := by
                rw [hseg0] at hlast ⊢
                simpa using hlast
              obtain ⟨hcount, dd, hdd1, hdd2, hdd3⟩ := hlast' hlast2
              refine ⟨?_, dd, ?_, hdd2, hdd3⟩
              · have hstep : countFetches (Event.fetchEv page :: Event.sleepEv :: seg') =
                    countFetches seg' + 1 := by
                  simp [countFetches]
                rw [← hseg0, hstep, hcount]
              · have harith : page + 1 + r - 1 = page + (r + 1) - 1 := by omega
                rw [← harith]
                exact hdd1
        · rw [if_neg hmore]
          exact hterm _ rfl

/-- C8 (amended): in every run of `fetch_all_results`, each inter-page sleep
is immediately preceded by a page fetch (in particular no sleep occurs before
the first fetch); but a sleep can occur after the last fetch: exactly when the
trace ends in a sleep, the run fetched all `max_pages` pages and the final
page still reported nonempty results with `more = true`. -/
theorem fetch_all_results_sleep_placement (fp : Nat → Except Nat SearchPage)
    (mp : Nat) :
    (∀ l1 l2, (fetch_all_results fp mp).2 = l1 ++ Event.sleepEv :: l2 →
      ∃ q l0, l1 = l0 ++ [Event.fetchEv q]) ∧
    ((fetch_all_results fp mp).2.getLast? = some Event.sleepEv →
      countFetches (fetch_all_results fp mp).2 = mp ∧
      ∃ d, fp (mp - 1) = Except.ok d ∧ d.results ≠ [] ∧ d.more = true) := by
  obtain ⟨seg, hseg, hok, _, hlast⟩ := fetchAllLoop_shape fp mp 0 [] [] []
  have hfull : (fetch_all_results fp mp).2 = seg := by
    rw [fetch_all_results, hseg]
    simp
  constructor
  · intro l1 l2 h
    exact traceOk_sleep_pred seg hok l1 l2 (by rw [← hfull, h])
  · intro h
    rw [hfull] at h ⊢
    have := hlast h
    simpa using this

/-- C8 counterexample: with `max_pages = 1` and a single successful page
reporting `more = true`, the run's event trace is a page fetch followed by a
sleep — the inter-page sleep does occur after the last page fetch when the
loop ends because `max_pages` pages have been fetched. -/
theorem fetch_all_results_trailing_sleep_counterexample :
    (fetch_all_results dupFp 1).2 = [Event.fetchEv 0, Event.sleepEv] ∧
    ¬ (∀ l1 l2, (fetch_all_results dupFp 1).2 = l1 ++ Event.sleepEv :: l2 →
        ∃ q, Event.fetchEv q ∈ l2) := by
  have h : (fetch_all_results dupFp 1).2 = [Event.fetchEv 0, Event.sleepEv] := by
    rfl
  refine ⟨h, fun hall => ?_⟩
  obtain ⟨q, hq⟩ := hall [Event.fetchEv 0] [] (by rw [h]; rfl)
  simp at hq

/-- C8 witness: the amended sleep-placement theorem applied to the concrete
one-page run whose trace is `[fetch 0, sleep]`. -/
theorem fetch_all_results_sleep_placement_witness :
    (∃ q l0, [Event.fetchEv 0] = l0 ++ [Event.fetchEv q]) ∧
    (countFetches (fetch_all_results dupFp 1).2 = 1 ∧
      ∃ d, dupFp 0 = Except.ok d ∧ d.results ≠ [] ∧ d.more = true) := by
  constructor
  · exact (fetch_all_results_sleep_placement dupFp 1).1
      [Event.fetchEv 0] [] (by rfl)
  · simpa using (fetch_all_results_sleep_placement dupFp 1).2 (by rfl)

/-!
## Date handling

`datetime.fromisoformat(date_str.replace("Z", "+00:00"))` parses an ISO-8601
timestamp `YYYY-MM-DD[*HH[:MM[:SS[.fff[fff]]]]][+HH:MM[:SS[.ffffff]]]` (the
date separator `*` may be any single character), validating all field ranges
and rejecting year 0; only the calendar date survives into the keys
`strftime("%Y-%m")` / `strftime("%Y-%m-%d")`, so the parser returns the date
triple after validating the time and offset parts.
-/

def isLeap (y : Nat) : Bool :=
  y % 4 = 0 && (y % 100 ≠ 0 || y % 400 = 0)

def daysInMonth (y m : Nat) : Nat :=
  if m = 2 then (if isLeap y then 29 else 28)
  else if m = 4 ∨ m = 6 ∨ m = 9 ∨ m = 11 then 30
  else 31

structure PyDate where
  year : Nat
  month : Nat
  day : Nat
deriving DecidableEq

def digitVal (c : Char) : Option Nat :=
  if 48 ≤ c.toNat ∧ c.toNat ≤ 57 then some (c.toNat - 48) else none

/-- `date_str.replace("Z", "+00:00")`: every occurrence of the single
character `Z` is replaced by `+00:00`. -/
def replaceZ : List Char → List Char
  | [] => []
  | c :: rest =>
    if c = 'Z' then '+' :: '0' :: '0' :: ':' :: '0' :: '0' :: replaceZ rest
    else c :: replaceZ rest

def pyReplaceZ (s : String) : String := ⟨replaceZ s.data⟩

def offFracOk : List Char → Bool
  | [] => true
  | '.' :: ds => ds.length = 6 && ds.all (fun c => (digitVal c).isSome)
  | _ => false

def offSecOk : List Char → Bool
  | [] => true
  | ':' :: a :: b :: rest =>
    (match digitVal a, digitVal b with
     | some x, some y => decide (x * 10 + y ≤ 59)
     | _, _ => false) && offFracOk rest
  | _ => false

def offsetOk : List Char → Bool
  | [] => true
  | sign :: h1 :: h2 :: ':' :: a :: b :: rest =>
    (sign = '+' || sign = '-') &&
    (match digitVal h1, digitVal h2, digitVal a, digitVal b with
     | some x, some y, some u, some v =>
       decide (x * 10 + y ≤ 23) && decide (u * 10 + v ≤ 59)
     | _, _, _, _ => false) && offSecOk rest
  | _ => false

def fracOk (cs : List Char) : Bool :=
  match cs with
  | '.' :: rest =>
    if rest.length ≥ 6 && (rest.take 6).all (fun c => (digitVal c).isSome) then
      offsetOk (rest.drop 6)
    else if rest.length ≥ 3 && (rest.take 3).all (fun c => (digitVal c).isSome) then
      offsetOk (rest.drop 3)
    else false
  | rest => offsetOk rest

def secOk : List Char → Bool
  | ':' :: a :: b :: rest =>
    (match digitVal a, digitVal b with
     | some x, some y => decide (x * 10 + y ≤ 59)
     | _, _ => false) && fracOk rest
  | rest => offsetOk rest

def minOk : List Char → Bool
  | ':' :: a :: b :: rest =>
    (match digitVal a, digitVal b with
     | some x, some y => decide (x * 10 + y ≤ 59)
     | _, _ => false) && secOk rest
  | rest => offsetOk rest

def timeOk : List Char → Bool
  | [] => true
  | _sep :: h1 :: h2 :: rest =>
    (match digitVal h1, digitVal h2 with
     | some x, some y => decide (x * 10 + y ≤ 23)
     | _, _ => false) && minOk rest
  | _ => false

def pyFromIso (s : String) : Option PyDate :=
  match s.data with
  | y1 :: y2 :: y3 :: y4 :: s1 :: m1 :: m2 :: s2 :: d1 :: d2 :: rest =>
    match digitVal y1, digitVal y2, digitVal y3, digitVal y4,
          digitVal m1, digitVal m2, digitVal d1, digitVal d2 with
    | some a, some b, some c, some d, some e, some f, some g, some h =>
      if s1 = '-' ∧ s2 = '-' then
        let y := ((a * 10 + b) * 10 + c) * 10 + d
        let m := e * 10 + f
        let dy := g * 10 + h
        if 1 ≤ y ∧ 1 ≤ m ∧ m ≤ 12 ∧ 1 ≤ dy ∧ dy ≤ daysInMonth y m ∧
            timeOk rest = true then
          some ⟨y, m, dy⟩
        else none
      else none
    | _, _, _, _, _, _, _, _ => none
  | _ => none

/-- The parsed date of a post, following the source exactly:
`date_str = post.get("post_date", "")`; skip when falsy; then
`datetime.fromisoformat(date_str.replace("Z", "+00:00"))`, skipping on
parse failure. -/
def pyParsedDate (p : Post) : Option PyDate :=
  match p.post_date with
  | none => none
  | some ds =>
    if ds = "" then none
    else pyFromIso (pyReplaceZ ds)

def digitChar (n : Nat) : Char := Char.ofNat (48 + n)

def pad2 (n : Nat) : List Char := [digitChar (n / 10), digitChar (n % 10)]

def pad4 (n : Nat) : List Char := pad2 (n / 100) ++ pad2 (n % 100)

/-- `strftime("%Y-%m")`. -/
def fmtMonthKey (y m : Nat) : String := ⟨pad4 y ++ '-' :: pad2 m⟩

/-- `strftime("%Y-%m-%d")`. -/
def fmtDayKey (y m d : Nat) : String := ⟨pad4 y ++ '-' :: (pad2 m ++ '-' :: pad2 d)⟩

/-!
## group_by_month

Python:
```
def group_by_month(posts):
    counts = defaultdict(int)
    for post in posts:
        date_str = post.get("post_date", "")
        if not date_str:
            continue
        try:
            dt = datetime.fromisoformat(date_str.replace("Z", "+00:00"))
            key = dt.strftime("%Y-%m")
            counts[key] += 1
        except (ValueError, TypeError):
            continue
    return dict(sorted(counts.items()))
```
The counting dict is an association list in insertion order; the final
`dict(sorted(...))` sorts the pairs by key.
-/

def bumpKey : List (String × Nat) → String → List (String × Nat)
  | [], k => [(k, 1)]
  | (k', v) :: rest, k =>
    if k' = k then (k', v + 1) :: rest else (k', v) :: bumpKey rest k

def group_by_month (posts : List Post) : List (String × Nat) :=
  (posts.foldl (fun counts p =>
    match pyParsedDate p with
    | none => counts
    | some t => bumpKey counts (fmtMonthKey t.year t.month)) []).mergeSort
      (fun a b => decide (a.1 ≤ b.1))

lemma bumpKey_sum (l : List (String × Nat)) (k : String) :
    ((bumpKey l k).map Prod.snd).sum = (l.map Prod.snd).sum + 1 := by
  induction l with
  | nil => simp [bumpKey]
  | cons kv rest ih =>
    obtain ⟨k', v⟩ := kv
    by_cases h : k' = k
    · simp only [bumpKey, if_pos h, List.map_cons, List.sum_cons]
      omega
    · simp only [bumpKey, if_neg h, List.map_cons, List.sum_cons, ih]
      omega

lemma groupFold_sum (posts : List Post) :
    ∀ init : List (String × Nat),
    ((posts.foldl (fun counts p =>
      match pyParsedDate p with
      | none => counts
      | some t => bumpKey counts (fmtMonthKey t.year t.month)) init).map
        Prod.snd).sum =
      (init.map Prod.snd).sum +
        (posts.filter (fun p => (pyParsedDate p).isSome)).length := by
  induction posts with
  | nil => intro init; simp
  | cons p rest ih =>
    intro init
    cases hp : pyParsedDate p with
    | none =>
      simp only [List.foldl_cons, hp, List.filter_cons]
      rw [ih init]
      simp [hp]
    | some t =>
      simp only [List.foldl_cons, hp, List.filter_cons]
      rw [ih (bumpKey init (fmtMonthKey t.year t.month)), bumpKey_sum]
      simp [hp]
      omega

/-- C4: the bucket counts of `group_by_month` sum to exactly the number of
posts with a present, parseable date, and a post with a missing or
unparseable date leaves the mapping unchanged (contributes to no bucket). -/
theorem group_by_month_total (posts : List Post) :
    ((group_by_month posts).map Prod.snd).sum =
      (posts.filter (fun p => (pyParsedDate p).isSome)).length ∧
    (∀ p, pyParsedDate p = none →
      group_by_month (posts ++ [p]) = group_by_month posts) := by
  constructor
  · have hperm := List.mergeSort_perm
      (posts.foldl (fun counts p =>
        match pyParsedDate p with
        | none => counts
        | some t => bumpKey counts (fmtMonthKey t.year t.month)) [])
      (fun a b : String × Nat => decide (a.1 ≤ b.1))
    have hsum := (hperm.map Prod.snd).sum_eq
    rw [group_by_month, hsum, groupFold_sum]
    simp
  · intro p hp
    rw [group_by_month, group_by_month, List.foldl_append]
    simp [hp]

/-- C4 witness: one post with a parseable UTC date and one with a malformed
date; the counts sum to 1, and appending the malformed post leaves the
mapping unchanged. -/
theorem group_by_month_total_witness :
    ((group_by_month [{ post_date := some "2024-01-05T00:00:00Z" },
        { post_date := some "not-a-date" }]).map Prod.snd).sum = 1 ∧
    group_by_month ([{ post_date := some "2024-01-05T00:00:00Z" }] ++
        [{ post_date := some "not-a-date" }]) =
      group_by_month [{ post_date := some "2024-01-05T00:00:00Z" }] := by
  have h1 := group_by_month_total
    [{ post_date := some "2024-01-05T00:00:00Z" }, { post_date := some "not-a-date" }]
  have h2 := group_by_month_total [{ post_date := some "2024-01-05T00:00:00Z" }]
  refine ⟨?_, h2.2 { post_date := some "not-a-date" } (by decide)⟩
  rw [h1.1]
  decide

/-!
## compute_daily_engagement

Python:
```
def compute_daily_engagement(posts):
    daily = defaultdict(lambda: {"total_reactions": 0, "post_count": 0})
    for post in posts:
        date_str = post.get("post_date", "")
        if not date_str:
            continue
        try:
            dt = datetime.fromisoformat(date_str.replace("Z", "+00:00"))
            key = dt.strftime("%Y-%m-%d")
            reactions = post.get("reaction_count", 0) or 0
            daily[key]["total_reactions"] += reactions
            daily[key]["post_count"] += 1
        except (ValueError, TypeError):
            continue
    result = {}
    for day in sorted(daily.keys()):
        d = daily[day]
        avg = d["total_reactions"] / d["post_count"] if d["post_count"] > 0 else 0
        result[day] = {..., "avg_reactions": round(avg, 1)}
    return result
```
`round(x, 1)` is round-half-to-even at one decimal place; Python floats are
modelled as `ℚ`.  `post.get("reaction_count", 0) or 0` maps a missing or
falsy (zero) value to 0, i.e. `Option.getD 0` on an integer field.
-/

structure EngStat where
  total_reactions : Int
  post_count : Nat
  avg_reactions : ℚ
deriving DecidableEq

def reactionsOf (p : Post) : Int := p.reaction_count.getD 0

def bumpEng : List (String × (Int × Nat)) → String → Int →
    List (String × (Int × Nat))
  | [], k, r => [(k, (r, 1))]
  | (k', tc) :: rest, k, r =>
    if k' = k then (k', (tc.1 + r, tc.2 + 1)) :: rest
    else (k', tc) :: bumpEng rest k r

/-- Round half to even to an integer. -/
def roundHalfEven (q : ℚ) : Int :=
  let f := ⌊q⌋
  if q - f < 1/2 then f
  else if 1/2 < q - f then f + 1
  else if f % 2 = 0 then f else f + 1

/-- Python's `round(x, 1)`. -/
def pyRound1 (q : ℚ) : ℚ := (roundHalfEven (10 * q) : ℚ) / 10

def compute_daily_engagement (posts : List Post) : List (String × EngStat) :=
  let daily := posts.foldl (fun m p =>
    match pyParsedDate p with
    | none => m
    | some t => bumpEng m (fmtDayKey t.year t.month t.day) (reactionsOf p)) []
  (daily.mergeSort (fun a b => decide (a.1 ≤ b.1))).map (fun kv =>
    (kv.1,
      { total_reactions := kv.2.1, post_count := kv.2.2,
        avg_reactions :=
          pyRound1 (if 0 < kv.2.2 then (kv.2.1 : ℚ) / kv.2.2 else 0) }))

lemma roundHalfEven_abs (q : ℚ) : |(roundHalfEven q : ℚ) - q| ≤ 1/2 := by
  have hfl : (⌊q⌋ : ℚ) ≤ q := Int.floor_le q
  have hfu : q < ⌊q⌋ + 1 := Int.lt_floor_add_one q
  rw [roundHalfEven]
  by_cases h1 : q - ⌊q⌋ < 1/2
  · rw [if_pos h1, abs_le]
    constructor <;> linarith
  · rw [if_neg h1]
    by_cases h2 : 1/2 < q - ⌊q⌋
    · rw [if_pos h2, abs_le]
      push_cast
      constructor <;> linarith
    · rw [if_neg h2]
      have heq : q - ⌊q⌋ = 1/2 := by linarith
      by_cases h3 : ⌊q⌋ % 2 = 0
      · rw [if_pos h3, abs_le]
        constructor <;> linarith
      · rw [if_neg h3, abs_le]
        push_cast
        constructor <;> linarith

lemma pyRound1_abs (q : ℚ) : |pyRound1 q - q| ≤ 1/20 := by
  have h := roundHalfEven_abs (10 * q)
  rw [pyRound1]
  have heq : (roundHalfEven (10 * q) : ℚ) / 10 - q =
      ((roundHalfEven (10 * q) : ℚ) - 10 * q) / 10 := by ring
  rw [heq, abs_div]
  rw [show |(10 : ℚ)| = 10 by norm_num]
  linarith

lemma bumpEng_counts : ∀ (m : List (String × (Int × Nat))) (k : String) (r : Int),
    (∀ e ∈ m, 1 ≤ e.2.2) → ∀ e ∈ bumpEng m k r, 1 ≤ e.2.2 := by
  intro m
  induction m with
  | nil =>
    intro k r _ e he
    rcases List.mem_singleton.mp he with rfl
    exact Nat.le_refl 1
  | cons kv rest ih =>
    intro k r hall e he
    obtain ⟨k', tc⟩ := kv
    by_cases h : k' = k
    · rw [bumpEng, if_pos h] at he
      rcases List.mem_cons.mp he with rfl | he
      · simp
      · exact hall e (List.mem_cons_of_mem _ he)
    · rw [bumpEng, if_neg h] at he
      rcases List.mem_cons.mp he with rfl | he
      · exact hall _ (List.mem_cons_self _ _)
      · exact ih k r (fun x hx => hall x (List.mem_cons_of_mem _ hx)) e he

lemma engFold_counts (posts : List Post) :
    ∀ init : List (String × (Int × Nat)),
    (∀ e ∈ init, 1 ≤ e.2.2) →
    ∀ e ∈ posts.foldl (fun m p =>
      match pyParsedDate p with
      | none => m
      | some t => bumpEng m (fmtDayKey t.year t.month t.day) (reactionsOf p))
        init, 1 ≤ e.2.2 := by
  induction posts with
  | nil => intro init h e he; exact h e he
  | cons p rest ih =>
    intro init h e he
    rw [List.foldl_cons] at he
    cases hp : pyParsedDate p with
    | none =>
      rw [hp] at he
      exact ih init h e he
    | some t =>
      rw [hp] at he
      exact ih _ (bumpEng_counts init _ _ h) e he

/-- C7: every day entry of `compute_daily_engagement` has `post_count ≥ 1`,
stores `avg_reactions = round(total_reactions / post_count, 1)` (half to
even), and therefore `avg_reactions * post_count` lies within
`± 0.05 * post_count` of `total_reactions`. -/
theorem compute_daily_engagement_avg_consistent (posts : List Post) :
    ∀ e ∈ compute_daily_engagement posts,
      1 ≤ e.2.post_count ∧
      e.2.avg_reactions =
        pyRound1 ((e.2.total_reactions : ℚ) / e.2.post_count) ∧
      |e.2.avg_reactions * e.2.post_count - e.2.total_reactions| ≤
        (e.2.post_count : ℚ) * (1/20) := by
  intro e he
  rw [compute_daily_engagement] at he
  obtain ⟨kv, hkv, rfl⟩ := List.mem_map.mp he
  have hcount : 1 ≤ kv.2.2 := by
    have hmem : kv ∈ posts.foldl (fun m p =>
        match pyParsedDate p with
        | none => m
        | some t => bumpEng m (fmtDayKey t.year t.month t.day) (reactionsOf p))
        [] := List.mem_mergeSort.mp hkv
    exact engFold_counts posts [] (by simp) kv hmem
  have hpos : 0 < kv.2.2 := hcount
  refine ⟨hcount, by simp [if_pos hpos], ?_⟩
  have hc0 : (kv.2.2 : ℚ) ≠ 0 := by
    exact_mod_cast Nat.pos_iff_ne_zero.mp hpos
  have habs := pyRound1_abs ((kv.2.1 : ℚ) / kv.2.2)
  have hkey : pyRound1 ((kv.2.1 : ℚ) / kv.2.2) * kv.2.2 - kv.2.1 =
      (pyRound1 ((kv.2.1 : ℚ) / kv.2.2) - (kv.2.1 : ℚ) / kv.2.2) * kv.2.2 := by
    field_simp
  simp only [if_pos hpos]
  rw [hkey, abs_mul]
  have hcpos : (0 : ℚ) < kv.2.2 := by positivity
  rw [abs_of_pos hcpos]
  calc |pyRound1 ((kv.2.1 : ℚ) / kv.2.2) - (kv.2.1 : ℚ) / kv.2.2| * kv.2.2
      ≤ (1/20) * kv.2.2 := by
        apply mul_le_mul_of_nonneg_right habs (le_of_lt hcpos)
    _ = (kv.2.2 : ℚ) * (1/20) := by ring

/-- C7 witness: the engagement-consistency theorem applied to a single post
with 10 reactions on 2024-01-05. -/
theorem compute_daily_engagement_avg_consistent_witness :
    ∃ e ∈ compute_daily_engagement
      [{ post_date := some "2024-01-05T00:00:00Z", reaction_count := some 10 }],
      1 ≤ e.2.post_count ∧
      e.2.avg_reactions =
        pyRound1 ((e.2.total_reactions : ℚ) / e.2.post_count) ∧
      |e.2.avg_reactions * e.2.post_count - e.2.total_reactions| ≤
        (e.2.post_count : ℚ) * (1/20) := by
  have hfold : ([{ post_date := some "2024-01-05T00:00:00Z", reaction_count := some 10 }] : List Post).foldl
      (fun m p =>
        match pyParsedDate p with
        | none => m
        | some t => bumpEng m (fmtDayKey t.year t.month t.day) (reactionsOf p))
      [] = [(fmtDayKey 2024 1 5, ((10 : Int), (1 : Nat)))] := by
    decide
  have hne : compute_daily_engagement
      [{ post_date := some "2024-01-05T00:00:00Z",
         reaction_count := some 10 }] ≠ [] := by
    simp only [compute_daily_engagement, hfold]
    simp [List.mergeSort]
  refine ⟨_, List.head_mem hne,
    compute_daily_engagement_avg_consistent _ _ (List.head_mem hne)⟩

/-!
## _extract_pub_name

Python:
```
def _extract_pub_name(post):
    try:
        bylines = post.get("publishedBylines", [])
        if bylines:
            pub_users = bylines[0].get("publicationUsers", [])
            if pub_users:
                return pub_users[0].get("publication", {}).get("name", "Unknown")
    except (IndexError, KeyError, TypeError):
        pass
    return "Unknown"
```
JSON-like Python values are modelled by `JVal`.  `.get(k, default)` succeeds
only on a dict and raises `AttributeError` on every other value (lists,
strings, numbers, booleans and `None` have no `.get`); `x[0]` yields the
head of a nonempty list, the first character of a nonempty string, raises
`KeyError` on a dict without integer key `0`, `IndexError` on an empty
list/string, and `TypeError` on non-subscriptable values.  The `except`
clause catches only `IndexError`, `KeyError` and `TypeError`, so an
`AttributeError` escapes the function.
-/

inductive JVal where
  | str (s : String)
  | num (n : Int)
  | boolean (b : Bool)
  | null
  | arr (l : List JVal)
  | obj (l : List (String × JVal))

inductive PyErr where
  | attrErr
  | typeErr
  | keyErr
  | idxErr
deriving DecidableEq

def pyTruthy : JVal → Bool
  | JVal.str s => s ≠ ""
  | JVal.num n => n ≠ 0
  | JVal.boolean b => b
  | JVal.null => false
  | JVal.arr l => !l.isEmpty
  | JVal.obj l => !l.isEmpty

/-- `v.get(k, default)`. -/
def pyGetDefault (v : JVal) (k : String) (dflt : JVal) : Except PyErr JVal :=
  match v with
  | JVal.obj kvs => Except.ok ((kvs.lookup k).getD dflt)
  | _ => Except.error PyErr.attrErr

/-- `v[0]`. -/
def pySubZero (v : JVal) : Except PyErr JVal :=
  match v with
  | JVal.arr [] => Except.error PyErr.idxErr
  | JVal.arr (x :: _) => Except.ok x
  | JVal.str s =>
    match s.data with
    | [] => Except.error PyErr.idxErr
    | c :: _ => Except.ok (JVal.str ⟨[c]⟩)
  | JVal.obj _ => Except.error PyErr.keyErr
  | _ => Except.error PyErr.typeErr

/-- The `try` body of `_extract_pub_name`, with the fall-through
`return "Unknown"` for falsy intermediate values.  The outer
`post.get("publishedBylines", [])` acts on the post dict itself and cannot
raise, so it is the plain association-list lookup with default. -/
def extractPubNameBody (post : List (String × JVal)) : Except PyErr JVal :=
  let bylines := (post.lookup "publishedBylines").getD (JVal.arr [])
  if pyTruthy bylines then
    match pySubZero bylines with
    | Except.error e => Except.error e
    | Except.ok b0 =>
      match pyGetDefault b0 "publicationUsers" (JVal.arr []) with
      | Except.error e => Except.error e
      | Except.ok pubUsers =>
        if pyTruthy pubUsers then
          match pySubZero pubUsers with
          | Except.error e => Except.error e
          | Except.ok u0 =>
            match pyGetDefault u0 "publication" (JVal.obj []) with
            | Except.error e => Except.error e
            | Except.ok pub => pyGetDefault pub "name" (JVal.str "Unknown")
        else Except.ok (JVal.str "Unknown")
  else Except.ok (JVal.str "Unknown")

/-- `_extract_pub_name`: the body wrapped in
`except (IndexError, KeyError, TypeError): return "Unknown"`; an
`AttributeError` propagates. -/
def extractPubName (post : List (String × JVal)) : Except PyErr JVal :=
  match extractPubNameBody post with
  | Except.ok v => Except.ok v
  | Except.error e =>
    if e = PyErr.attrErr then Except.error e
    else Except.ok (JVal.str "Unknown")

/-- C9 counterexample: for `post = {"publishedBylines": [5]}` — a malformed
value at the bylines level — `_extract_pub_name` does not return
`"Unknown"`: calling `.get` on the number `5` raises `AttributeError`, which
is not in the caught exception tuple and so escapes. -/
theorem extractPubName_attr_counterexample :
    extractPubName [("publishedBylines", JVal.arr [JVal.num 5])] =
      Except.error PyErr.attrErr ∧
    extractPubName [("publishedBylines", JVal.arr [JVal.num 5])] ≠
      Except.ok (JVal.str "Unknown") := by
  have h : extractPubName [("publishedBylines", JVal.arr [JVal.num 5])] =
      Except.error PyErr.attrErr := rfl
  refine ⟨h, ?_⟩
  rw [h]
  simp

/-- C9 (amended): `_extract_pub_name` returns `"Unknown"` whenever the
nested structure is absent or falsy at some level, or its traversal raises
one of the caught exceptions (`IndexError`, `KeyError`, `TypeError`); but
when the traversal raises `AttributeError` (a value without `.get`, e.g. a
number or string where a dict is expected) the exception propagates instead
of yielding `"Unknown"`. -/
theorem extractPubName_unknown_on_caught (post : List (String × JVal)) :
    (∀ e, extractPubNameBody post = Except.error e →
      (e ≠ PyErr.attrErr → extractPubName post = Except.ok (JVal.str "Unknown")) ∧
      (e = PyErr.attrErr → extractPubName post = Except.error PyErr.attrErr)) ∧
    (post.lookup "publishedBylines" = none →
      extractPubName post = Except.ok (JVal.str "Unknown")) := by
  constructor
  · intro e he
    constructor
    · intro hne
      simp only [extractPubName, he]
      rw [if_neg hne]
    · intro heq
      simp only [extractPubName, he]
      rw [if_pos heq, heq]
  · intro hnone
    have hbody : extractPubNameBody post = Except.ok (JVal.str "Unknown") := by
      simp only [extractPubNameBody, hnone, Option.getD_none]
      rfl
    simp only [extractPubName, hbody]

/-- C9 witness: the amended theorem applied to a post whose bylines list is
empty (`{"publishedBylines": {}}`, caught `KeyError` path) and to a post
missing the key entirely. -/
theorem extractPubName_unknown_on_caught_witness :
    extractPubName [("publishedBylines", JVal.obj [("x", JVal.null)])] =
      Except.ok (JVal.str "Unknown") ∧
    extractPubName [("other", JVal.null)] = Except.ok (JVal.str "Unknown") := by
  constructor
  · exact ((extractPubName_unknown_on_caught
      [("publishedBylines", JVal.obj [("x", JVal.null)])]).1
      PyErr.keyErr rfl).1 (by decide)
  · exact (extractPubName_unknown_on_caught [("other", JVal.null)]).2 rfl

/-!
## Timelines

Python (`build_monthly_timeline`):
```
all_months = set()
for counts in monthly_data.values():
    all_months.update(counts.keys())
if not all_months:
    return []
sorted_months = sorted(all_months)
start = datetime.strptime(sorted_months[0], "%Y-%m")
end = datetime.strptime(sorted_months[-1], "%Y-%m")
timeline = []
current = start
while current <= end:
    timeline.append(current.strftime("%Y-%m"))
    if current.month == 12:
        current = current.replace(year=current.year + 1, month=1)
    else:
        current = current.replace(month=current.month + 1)
return timeline
```
and `build_daily_timeline` analogously with `"%Y-%m-%d"` keys and
`current += timedelta(days=1)`.  The input is the family of key lists of the
per-query bucket mappings (the values are never used).  `strptime` raising on
a malformed key makes the whole call fail, modelled by `Option`.  A
`datetime` is always a valid calendar date, so the month/day stepping loops
carry the month-range (resp. day-range) invariant; their termination measure
is a crude monotone index of the calendar.
-/

structure YM where
  year : Nat
  month : Nat
deriving DecidableEq

lemma YM_year_mk (y m : Nat) : (YM.mk y m).year = y := rfl

lemma YM_month_mk (y m : Nat) : (YM.mk y m).month = m := rfl

lemma PyDate_year_mk (y m d : Nat) : (PyDate.mk y m d).year = y := rfl

lemma PyDate_month_mk (y m d : Nat) : (PyDate.mk y m d).month = m := rfl

lemma PyDate_day_mk (y m d : Nat) : (PyDate.mk y m d).day = d := rfl

def ymLe (a b : YM) : Prop :=
  a.year < b.year ∨ (a.year = b.year ∧ a.month ≤ b.month)

def ymLt (a b : YM) : Prop :=
  a.year < b.year ∨ (a.year = b.year ∧ a.month < b.month)

instance (a b : YM) : Decidable (ymLe a b) :=
  inferInstanceAs (Decidable (_ ∨ _))

def dayLe (a b : PyDate) : Prop :=
  a.year < b.year ∨ (a.year = b.year ∧
    (a.month < b.month ∨ (a.month = b.month ∧ a.day ≤ b.day)))

def dayLt (a b : PyDate) : Prop :=
  a.year < b.year ∨ (a.year = b.year ∧
    (a.month < b.month ∨ (a.month = b.month ∧ a.day < b.day)))

instance (a b : PyDate) : Decidable (dayLe a b) :=
  inferInstanceAs (Decidable (_ ∨ _))

/-- The month increment of the `while` loop. -/
def nextMonth (t : YM) : YM :=
  if t.month = 12 then ⟨t.year + 1, 1⟩ else ⟨t.year, t.month + 1⟩

/-- `current += timedelta(days=1)` on a valid date. -/
def nextDay (t : PyDate) : PyDate :=
  if t.day < daysInMonth t.year t.month then ⟨t.year, t.month, t.day + 1⟩
  else if t.month < 12 then ⟨t.year, t.month + 1, 1⟩
  else ⟨t.year + 1, 1, 1⟩

def MonthOk (t : YM) : Prop := 1 ≤ t.month ∧ t.month ≤ 12

def DayOk (t : PyDate) : Prop :=
  1 ≤ t.month ∧ t.month ≤ 12 ∧ 1 ≤ t.day ∧ t.day ≤ daysInMonth t.year t.month

def ValidYM (t : YM) : Prop :=
  1 ≤ t.year ∧ t.year ≤ 9999 ∧ 1 ≤ t.month ∧ t.month ≤ 12

def ValidDay (t : PyDate) : Prop :=
  1 ≤ t.year ∧ t.year ≤ 9999 ∧ DayOk t

def monthIdx (t : YM) : Nat := t.year * 12 + t.month

def dayIdx (t : PyDate) : Nat := t.year * 450 + t.month * 32 + t.day

lemma daysInMonth_bounds (y m : Nat) :
    28 ≤ daysInMonth y m ∧ daysInMonth y m ≤ 31 := by
  rw [daysInMonth]
  split_ifs <;> omega

lemma monthOk_next (t : YM) (h : MonthOk t) : MonthOk (nextMonth t) := by
  rcases h with ⟨h1, h2⟩
  rw [MonthOk, nextMonth]
  split_ifs with h12 <;> dsimp only <;> omega

lemma monthIdx_next (t : YM) : monthIdx (nextMonth t) = monthIdx t + 1 := by
  rw [nextMonth]
  split_ifs with h12
  · simp only [monthIdx, h12]
    ring
  · simp only [monthIdx]
    ring

lemma ymLe_monthIdx {a b : YM} (ha : MonthOk a) (h : ymLe a b) :
    monthIdx a ≤ monthIdx b := by
  rcases h with h | ⟨h1, h2⟩
  · rcases ha with ⟨_, ha2⟩
    have : monthIdx a ≤ a.year * 12 + 12 := by simp only [monthIdx]; omega
    have : a.year * 12 + 12 = (a.year + 1) * 12 := by ring
    have hb : (a.year + 1) * 12 ≤ b.year * 12 := by
      exact Nat.mul_le_mul_right 12 h
    simp only [monthIdx] at *
    nlinarith
  · simp only [monthIdx, h1]
    omega

lemma dayOk_next (t : PyDate) (h : DayOk t) : DayOk (nextDay t) := by
  obtain ⟨h1, h2, h3, h4⟩ := h
  rw [DayOk, nextDay]
  split_ifs with ha hb <;> dsimp only
  · exact ⟨h1, h2, by omega, by omega⟩
  · have := daysInMonth_bounds t.year (t.month + 1)
    exact ⟨by omega, by omega, by omega, by omega⟩
  · have := daysInMonth_bounds (t.year + 1) 1
    exact ⟨by omega, by omega, by omega, by omega⟩

lemma dayIdx_next (t : PyDate) (h : DayOk t) :
    dayIdx t < dayIdx (nextDay t) := by
  obtain ⟨h1, h2, h3, h4⟩ := h
  have hd31 := daysInMonth_bounds t.year t.month
  rw [nextDay]
  split_ifs with ha hb <;> simp only [dayIdx] <;> nlinarith

lemma dayLe_dayIdx {a b : PyDate} (ha : DayOk a) (h : dayLe a b) :
    dayIdx a ≤ dayIdx b := by
  obtain ⟨h1, h2, h3, h4⟩ := ha
  have hd31 := daysInMonth_bounds a.year a.month
  rcases h with h | ⟨hy, h⟩
  · simp only [dayIdx]
    nlinarith
  · rcases h with h | ⟨hm, hd⟩
    · simp only [dayIdx, hy]
      nlinarith
    · simp only [dayIdx, hy, hm]
      omega

def monthRange (cur e : YM) (h : MonthOk cur) : List String :=
  if hle : ymLe cur e then
    fmtMonthKey cur.year cur.month ::
      monthRange (nextMonth cur) e (monthOk_next cur h)
  else []
termination_by monthIdx e + 1 - monthIdx cur
decreasing_by
  have h1 := ymLe_monthIdx h hle
  have h2 := monthIdx_next cur
  omega

def dayRange (cur e : PyDate) (h : DayOk cur) : List String :=
  if hle : dayLe cur e then
    fmtDayKey cur.year cur.month cur.day ::
      dayRange (nextDay cur) e (dayOk_next cur h)
  else []
termination_by dayIdx e + 1 - dayIdx cur
decreasing_by
  have h1 := dayLe_dayIdx h hle
  have h2 := dayIdx_next cur h
  omega

lemma digitChar_lt_iff_fin :
    ∀ a b : Fin 10, (digitChar a.val < digitChar b.val ↔ a.val < b.val) := by
  decide

lemma digitChar_lt_iff {a b : Nat} (ha : a < 10) (hb : b < 10) :
    digitChar a < digitChar b ↔ a < b :=
  digitChar_lt_iff_fin ⟨a, ha⟩ ⟨b, hb⟩

lemma digitChar_eq_iff_fin :
    ∀ a b : Fin 10, (digitChar a.val = digitChar b.val ↔ a = b) := by
  decide

lemma digitChar_eq_iff {a b : Nat} (ha : a < 10) (hb : b < 10) :
    digitChar a = digitChar b ↔ a = b := by
  have := digitChar_eq_iff_fin ⟨a, ha⟩ ⟨b, hb⟩
  simpa [Fin.mk.injEq] using this

lemma digitVal_digitChar_fin :
    ∀ a : Fin 10, digitVal (digitChar a.val) = some a.val := by
  decide

lemma digitVal_digitChar {a : Nat} (ha : a < 10) :
    digitVal (digitChar a) = some a :=
  digitVal_digitChar_fin ⟨a, ha⟩

lemma lex_cons_iff {x y : Char} {l1 l2 : List Char} :
    List.Lex (· < ·) (x :: l1) (y :: l2) ↔
      x < y ∨ (x = y ∧ List.Lex (· < ·) l1 l2) := by
  constructor
  · intro h
    cases h with
    | rel h => exact Or.inl h
    | cons h => exact Or.inr ⟨rfl, h⟩
  · rintro (h | ⟨rfl, h⟩)
    · exact List.Lex.rel h
    · exact List.Lex.cons h

lemma lex_pad2 {a b : Nat} (ha : a < 100) (hb : b < 100) (r1 r2 : List Char) :
    List.Lex (· < ·) (pad2 a ++ r1) (pad2 b ++ r2) ↔
      a < b ∨ (a = b ∧ List.Lex (· < ·) r1 r2) := by
  have ha1 : a / 10 < 10 := by omega
  have hb1 : b / 10 < 10 := by omega
  have ha2 : a % 10 < 10 := by omega
  have hb2 : b % 10 < 10 := by omega
  simp only [pad2, List.cons_append]
  rw [lex_cons_iff, digitChar_lt_iff ha1 hb1, digitChar_eq_iff ha1 hb1,
    lex_cons_iff, digitChar_lt_iff ha2 hb2, digitChar_eq_iff ha2 hb2]
  constructor
  · rintro (h | ⟨h1, h | ⟨h2, hP⟩⟩)
    · left; omega
    · left; omega
    · right; exact ⟨by omega, hP⟩
  · rintro (h | ⟨h1, hP⟩)
    · by_cases hd : a / 10 < b / 10
      · exact Or.inl hd
      · exact Or.inr ⟨by omega, Or.inl (by omega)⟩
    · exact Or.inr ⟨by omega, Or.inr ⟨by omega, hP⟩⟩

lemma lex_pad4 {a b : Nat} (ha : a < 10000) (hb : b < 10000) (r1 r2 : List Char) :
    List.Lex (· < ·) (pad4 a ++ r1) (pad4 b ++ r2) ↔
      a < b ∨ (a = b ∧ List.Lex (· < ·) r1 r2) := by
  have ha1 : a / 100 < 100 := by omega
  have hb1 : b / 100 < 100 := by omega
  have ha2 : a % 100 < 100 := by omega
  have hb2 : b % 100 < 100 := by omega
  simp only [pad4, List.append_assoc]
  rw [lex_pad2 ha1 hb1, lex_pad2 ha2 hb2]
  constructor
  · rintro (h | ⟨h1, h | ⟨h2, hP⟩⟩)
    · left; omega
    · left; omega
    · right; exact ⟨by omega, hP⟩
  · rintro (h | ⟨h1, hP⟩)
    · by_cases hd : a / 100 < b / 100
      · exact Or.inl hd
      · exact Or.inr ⟨by omega, Or.inl (by omega)⟩
    · exact Or.inr ⟨by omega, Or.inr ⟨by omega, hP⟩⟩

lemma lex_dash_cons (r1 r2 : List Char) :
    List.Lex (· < ·) ('-' :: r1) ('-' :: r2) ↔ List.Lex (· < ·) r1 r2 := by
  rw [lex_cons_iff]
  simp [lt_irrefl]

lemma lex_pad2_nil {a b : Nat} (ha : a < 100) (hb : b < 100) :
    List.Lex (· < ·) (pad2 a) (pad2 b) ↔ a < b := by
  have h := lex_pad2 ha hb [] []
  simp only [List.append_nil] at h
  rw [h]
  constructor
  · rintro (h | ⟨_, h⟩)
    · exact h
    · exact absurd h (List.Lex.not_nil_right _ _)
  · exact Or.inl

/-- `datetime.strptime(key, "%Y-%m")` on a well-formed month key. -/
def parseMonthKey (s : String) : Option YM :=
  match s.data with
  | [a, b, c, d, dash, e, f] =>
    match digitVal a, digitVal b, digitVal c, digitVal d,
          digitVal e, digitVal f with
    | some a', some b', some c', some d', some e', some f' =>
      if dash = '-' then
        let y := ((a' * 10 + b') * 10 + c') * 10 + d'
        let m := e' * 10 + f'
        if 1 ≤ y ∧ 1 ≤ m ∧ m ≤ 12 then some ⟨y, m⟩ else none
      else none
    | _, _, _, _, _, _ => none
  | _ => none

/-- `datetime.strptime(key, "%Y-%m-%d")` on a well-formed day key. -/
def parseDayKey (s : String) : Option PyDate :=
  match s.data with
  | [a, b, c, d, dash1, e, f, dash2, g, h] =>
    match digitVal a, digitVal b, digitVal c, digitVal d,
          digitVal e, digitVal f, digitVal g, digitVal h with
    | some a', some b', some c', some d', some e', some f', some g', some h' =>
      if dash1 = '-' ∧ dash2 = '-' then
        let y := ((a' * 10 + b') * 10 + c') * 10 + d'
        let m := e' * 10 + f'
        let dy := g' * 10 + h'
        if 1 ≤ y ∧ 1 ≤ m ∧ m ≤ 12 ∧ 1 ≤ dy ∧ dy ≤ daysInMonth y m then
          some ⟨y, m, dy⟩
        else none
      else none
    | _, _, _, _, _, _, _, _ => none
  | _ => none

lemma fmtMonthKey_data (y m : Nat) :
    (fmtMonthKey y m).data =
      [digitChar (y / 100 / 10), digitChar (y / 100 % 10),
       digitChar (y % 100 / 10), digitChar (y % 100 % 10), '-',
       digitChar (m / 10), digitChar (m % 10)] := by
  simp [fmtMonthKey, pad4, pad2]

lemma fmtDayKey_data (y m d : Nat) :
    (fmtDayKey y m d).data =
      [digitChar (y / 100 / 10), digitChar (y / 100 % 10),
       digitChar (y % 100 / 10), digitChar (y % 100 % 10), '-',
       digitChar (m / 10), digitChar (m % 10), '-',
       digitChar (d / 10), digitChar (d % 10)] := by
  simp [fmtDayKey, pad4, pad2]

lemma parseMonthKey_fmt (t : YM) (h : ValidYM t) :
    parseMonthKey (fmtMonthKey t.year t.month) = some t := by
  obtain ⟨y, m⟩ := t
  obtain ⟨hy1, hy2, hm1, hm2⟩ := h
  dsimp only at hy1 hy2 hm1 hm2 ⊢
  rw [parseMonthKey, fmtMonthKey_data]
  dsimp only
  rw [digitVal_digitChar (by omega : y / 100 / 10 < 10),
    digitVal_digitChar (by omega : y / 100 % 10 < 10),
    digitVal_digitChar (by omega : y % 100 / 10 < 10),
    digitVal_digitChar (by omega : y % 100 % 10 < 10),
    digitVal_digitChar (by omega : m / 10 < 10),
    digitVal_digitChar (by omega : m % 10 < 10)]
  have hy : ((y / 100 / 10 * 10 + y / 100 % 10) * 10 + y % 100 / 10) * 10 +
      y % 100 % 10 = y := by omega
  have hm : m / 10 * 10 + m % 10 = m := by omega
  simp only [if_pos rfl, hy, hm]
  simp [hy1, hm1, hm2]

lemma parseDayKey_fmt (t : PyDate) (h : ValidDay t) :
    parseDayKey (fmtDayKey t.year t.month t.day) = some t := by
  obtain ⟨y, m, d⟩ := t
  obtain ⟨hy1, hy2, hm1, hm2, hd1, hd2⟩ := h
  dsimp only at hy1 hy2 hm1 hm2 hd1 hd2 ⊢
  have hdb := daysInMonth_bounds y m
  rw [parseDayKey, fmtDayKey_data]
  dsimp only
  rw [digitVal_digitChar (by omega : y / 100 / 10 < 10),
    digitVal_digitChar (by omega : y / 100 % 10 < 10),
    digitVal_digitChar (by omega : y % 100 / 10 < 10),
    digitVal_digitChar (by omega : y % 100 % 10 < 10),
    digitVal_digitChar (by omega : m / 10 < 10),
    digitVal_digitChar (by omega : m % 10 < 10),
    digitVal_digitChar (by omega : d / 10 < 10),
    digitVal_digitChar (by omega : d % 10 < 10)]
  have hy : ((y / 100 / 10 * 10 + y / 100 % 10) * 10 + y % 100 / 10) * 10 +
      y % 100 % 10 = y := by omega
  have hm : m / 10 * 10 + m % 10 = m := by omega
  have hd : d / 10 * 10 + d % 10 = d := by omega
  have hdash : ('-' : Char) = '-' ∧ ('-' : Char) = '-' := ⟨rfl, rfl⟩
  simp only [if_pos hdash, hy, hm, hd]
  simp [hy1, hm1, hm2, hd1, hd2]

lemma fmtMonthKey_lt_iff {t1 t2 : YM} (h1 : ValidYM t1) (h2 : ValidYM t2) :
    fmtMonthKey t1.year t1.month < fmtMonthKey t2.year t2.month ↔
      ymLt t1 t2 := by
  obtain ⟨y1, m1⟩ := t1
  obtain ⟨y2, m2⟩ := t2
  obtain ⟨hy1a, hy1b, hm1a, hm1b⟩ := h1
  obtain ⟨hy2a, hy2b, hm2a, hm2b⟩ := h2
  dsimp only at *
  rw [String.lt_iff_toList_lt]
  have hlex : (fmtMonthKey y1 m1).toList < (fmtMonthKey y2 m2).toList ↔
      List.Lex (· < ·) (pad4 y1 ++ '-' :: pad2 m1)
        (pad4 y2 ++ '-' :: pad2 m2) := Iff.rfl
  rw [hlex, lex_pad4 (by omega) (by omega), lex_dash_cons,
    lex_pad2_nil (by omega) (by omega)]
  rw [ymLt]

lemma fmtDayKey_lt_iff {t1 t2 : PyDate} (h1 : ValidDay t1) (h2 : ValidDay t2) :
    fmtDayKey t1.year t1.month t1.day < fmtDayKey t2.year t2.month t2.day ↔
      dayLt t1 t2 := by
  obtain ⟨y1, m1, d1⟩ := t1
  obtain ⟨y2, m2, d2⟩ := t2
  obtain ⟨hy1a, hy1b, hm1a, hm1b, hd1a, hd1b⟩ := h1
  obtain ⟨hy2a, hy2b, hm2a, hm2b, hd2a, hd2b⟩ := h2
  dsimp only at *
  have hdb1 := daysInMonth_bounds y1 m1
  have hdb2 := daysInMonth_bounds y2 m2
  rw [String.lt_iff_toList_lt]
  have hlex : (fmtDayKey y1 m1 d1).toList < (fmtDayKey y2 m2 d2).toList ↔
      List.Lex (· < ·) (pad4 y1 ++ '-' :: (pad2 m1 ++ '-' :: pad2 d1))
        (pad4 y2 ++ '-' :: (pad2 m2 ++ '-' :: pad2 d2)) := Iff.rfl
  rw [hlex, lex_pad4 (by omega) (by omega), lex_dash_cons,
    lex_pad2 (by omega) (by omega), lex_dash_cons,
    lex_pad2_nil (by omega) (by omega)]
  rw [dayLt]

lemma fmtMonthKey_le_iff {t1 t2 : YM} (h1 : ValidYM t1) (h2 : ValidYM t2) :
    fmtMonthKey t1.year t1.month ≤ fmtMonthKey t2.year t2.month ↔
      ymLe t1 t2 := by
  rw [le_iff_lt_or_eq, fmtMonthKey_lt_iff h1 h2]
  constructor
  · rintro (h | h)
    · rcases h with h | ⟨he, h⟩
      · exact Or.inl h
      · exact Or.inr ⟨he, Nat.le_of_lt h⟩
    · have := congrArg parseMonthKey h
      rw [parseMonthKey_fmt t1 h1, parseMonthKey_fmt t2 h2] at this
      obtain rfl : t1 = t2 := by simpa using this
      exact Or.inr ⟨rfl, Nat.le_refl _⟩
  · intro h
    by_cases he : t1 = t2
    · subst he
      exact Or.inr rfl
    · left
      obtain ⟨y1, m1⟩ := t1
      obtain ⟨y2, m2⟩ := t2
      simp only [ymLe] at h
      simp only [ymLt]
      try dsimp only at h ⊢
      have hne : y1 ≠ y2 ∨ m1 ≠ m2 := by
        by_contra hc
        push_neg at hc
        exact he (by rw [hc.1, hc.2])
      rcases h with h | ⟨hy, hm⟩
      · exact Or.inl h
      · subst hy
        refine Or.inr ⟨rfl, ?_⟩
        rcases hne with hne | hne
        · exact absurd rfl hne
        · omega

lemma fmtDayKey_le_iff {t1 t2 : PyDate} (h1 : ValidDay t1) (h2 : ValidDay t2) :
    fmtDayKey t1.year t1.month t1.day ≤ fmtDayKey t2.year t2.month t2.day ↔
      dayLe t1 t2 := by
  rw [le_iff_lt_or_eq, fmtDayKey_lt_iff h1 h2]
  constructor
  · rintro (h | h)
    · rcases h with h | ⟨he, h | ⟨hm, hd⟩⟩
      · exact Or.inl h
      · exact Or.inr ⟨he, Or.inl h⟩
      · exact Or.inr ⟨he, Or.inr ⟨hm, Nat.le_of_lt hd⟩⟩
    · have := congrArg parseDayKey h
      rw [parseDayKey_fmt t1 h1, parseDayKey_fmt t2 h2] at this
      obtain rfl : t1 = t2 := by simpa using this
      exact Or.inr ⟨rfl, Or.inr ⟨rfl, Nat.le_refl _⟩⟩
  · intro h
    by_cases he : t1 = t2
    · subst he
      exact Or.inr rfl
    · left
      obtain ⟨y1, m1, d1⟩ := t1
      obtain ⟨y2, m2, d2⟩ := t2
      simp only [dayLe] at h
      simp only [dayLt]
      try dsimp only at h ⊢
      have hne : y1 ≠ y2 ∨ m1 ≠ m2 ∨ d1 ≠ d2 := by
        by_contra hc
        push_neg at hc
        exact he (by rw [hc.1, hc.2.1, hc.2.2])
      rcases h with h | ⟨hy, h | ⟨hm, hd⟩⟩
      · exact Or.inl h
      · exact Or.inr ⟨hy, Or.inl h⟩
      · subst hy
        subst hm
        refine Or.inr ⟨rfl, Or.inr ⟨rfl, ?_⟩⟩
        rcases hne with hne | hne | hne
        · exact absurd rfl hne
        · exact absurd rfl hne
        · omega

lemma ymLe_trans {a b c : YM} (h1 : ymLe a b) (h2 : ymLe b c) : ymLe a c := by
  rcases h1 with h1 | ⟨h1, h1'⟩ <;> rcases h2 with h2 | ⟨h2, h2'⟩ <;>
    simp only [ymLe] <;> omega

lemma dayLe_trans {a b c : PyDate} (h1 : dayLe a b) (h2 : dayLe b c) :
    dayLe a c := by
  rcases h1 with h1 | ⟨h1, h1' | ⟨h1', h1''⟩⟩ <;>
    rcases h2 with h2 | ⟨h2, h2' | ⟨h2', h2''⟩⟩ <;>
    simp only [dayLe] <;> omega

lemma ymLt_of_le_ne {a b : YM} (h : ymLe a b) (hne : a ≠ b) : ymLt a b := by
  obtain ⟨y1, m1⟩ := a
  obtain ⟨y2, m2⟩ := b
  have hne' : y1 ≠ y2 ∨ m1 ≠ m2 := by
    by_contra hc
    push_neg at hc
    exact hne (by rw [hc.1, hc.2])
  simp only [ymLe] at h
  simp only [ymLt]
  omega

lemma dayLt_of_le_ne {a b : PyDate} (h : dayLe a b) (hne : a ≠ b) :
    dayLt a b := by
  obtain ⟨y1, m1, d1⟩ := a
  obtain ⟨y2, m2, d2⟩ := b
  have hne' : y1 ≠ y2 ∨ m1 ≠ m2 ∨ d1 ≠ d2 := by
    by_contra hc
    push_neg at hc
    exact hne (by rw [hc.1, hc.2.1, hc.2.2])
  simp only [dayLe] at h
  simp only [dayLt]
  omega

lemma nextMonth_le_of_lt {cur t : YM} (ht : MonthOk t) (h : ymLt cur t) :
    ymLe (nextMonth cur) t := by
  obtain ⟨y1, m1⟩ := cur
  obtain ⟨y2, m2⟩ := t
  obtain ⟨ht1, ht2⟩ := ht
  have ht1' : 1 ≤ m2 := ht1
  have ht2' : m2 ≤ 12 := ht2
  simp only [ymLt, YM_year_mk, YM_month_mk] at h
  by_cases h12 : m1 = 12
  · have hn : nextMonth ⟨y1, m1⟩ = ⟨y1 + 1, 1⟩ := by
      simp [nextMonth, YM_month_mk, h12]
    rw [hn]
    simp only [ymLe, YM_year_mk, YM_month_mk]
    omega
  · have hn : nextMonth ⟨y1, m1⟩ = ⟨y1, m1 + 1⟩ := by
      simp [nextMonth, YM_month_mk, h12]
    rw [hn]
    simp only [ymLe, YM_year_mk, YM_month_mk]
    omega

lemma nextDay_le_of_lt {cur t : PyDate} (hc : DayOk cur) (ht : DayOk t)
    (h : dayLt cur t) : dayLe (nextDay cur) t := by
  obtain ⟨y1, m1, d1⟩ := cur
  obtain ⟨y2, m2, d2⟩ := t
  obtain ⟨hc1, hc2, hc3, hc4⟩ := hc
  obtain ⟨ht1, ht2, ht3, ht4⟩ := ht
  have hc3' : 1 ≤ d1 := hc3
  have hc4' : d1 ≤ daysInMonth y1 m1 := hc4
  have ht3' : 1 ≤ d2 := ht3
  have ht4' : d2 ≤ daysInMonth y2 m2 := ht4
  have hc1' : 1 ≤ m1 := hc1
  have hc2' : m1 ≤ 12 := hc2
  have ht1' : 1 ≤ m2 := ht1
  have ht2' : m2 ≤ 12 := ht2
  simp only [dayLt, PyDate_year_mk, PyDate_month_mk, PyDate_day_mk] at h
  by_cases ha : d1 < daysInMonth y1 m1
  · have hn : nextDay ⟨y1, m1, d1⟩ = ⟨y1, m1, d1 + 1⟩ := by
      simp [nextDay, PyDate_year_mk, PyDate_month_mk, PyDate_day_mk, ha]
    rw [hn]
    simp only [dayLe, PyDate_year_mk, PyDate_month_mk, PyDate_day_mk]
    omega
  · by_cases hb : m1 < 12
    · have hn : nextDay ⟨y1, m1, d1⟩ = ⟨y1, m1 + 1, 1⟩ := by
        simp [nextDay, PyDate_year_mk, PyDate_month_mk, PyDate_day_mk, ha, hb]
      rw [hn]
      simp only [dayLe, PyDate_year_mk, PyDate_month_mk, PyDate_day_mk]
      rcases h with h | ⟨hy, h | ⟨hm, hd⟩⟩
      · omega
      · omega
      · subst hy
        subst hm
        omega
    · have hn : nextDay ⟨y1, m1, d1⟩ = ⟨y1 + 1, 1, 1⟩ := by
        simp [nextDay, PyDate_year_mk, PyDate_month_mk, PyDate_day_mk, ha, hb]
      rw [hn]
      simp only [dayLe, PyDate_year_mk, PyDate_month_mk, PyDate_day_mk]
      rcases h with h | ⟨hy, h | ⟨hm, hd⟩⟩
      · omega
      · omega
      · subst hy
        subst hm
        omega

lemma monthRange_mem : ∀ (n : Nat) (cur e : YM) (h : MonthOk cur) (t : YM),
    monthIdx e + 1 - monthIdx cur ≤ n → MonthOk t →
    ymLe cur t → ymLe t e →
    fmtMonthKey t.year t.month ∈ monthRange cur e h := by
  intro n
  induction n with
  | zero =>
    intro cur e h t hn hok hct hte
    have h1 := ymLe_monthIdx h hct
    have h2 := ymLe_monthIdx hok hte
    omega
  | succ n ih =>
    intro cur e h t hn hok hct hte
    have hle : ymLe cur e := ymLe_trans hct hte
    rw [monthRange, dif_pos hle]
    by_cases heq : cur = t
    · subst heq
      exact List.mem_cons_self _ _
    · have hlt := ymLt_of_le_ne hct heq
      have hnext := nextMonth_le_of_lt hok hlt
      refine List.mem_cons_of_mem _
        (ih (nextMonth cur) e (monthOk_next cur h) t ?_ hok hnext hte)
      have h2 := monthIdx_next cur
      have h1 := ymLe_monthIdx h hct
      omega

lemma dayRange_mem : ∀ (n : Nat) (cur e : PyDate) (h : DayOk cur) (t : PyDate),
    dayIdx e + 1 - dayIdx cur ≤ n → DayOk t →
    dayLe cur t → dayLe t e →
    fmtDayKey t.year t.month t.day ∈ dayRange cur e h := by
  intro n
  induction n with
  | zero =>
    intro cur e h t hn hok hct hte
    have h1 := dayLe_dayIdx h hct
    have h2 := dayLe_dayIdx hok hte
    omega
  | succ n ih =>
    intro cur e h t hn hok hct hte
    have hle : dayLe cur e := dayLe_trans hct hte
    rw [dayRange, dif_pos hle]
    by_cases heq : cur = t
    · subst heq
      exact List.mem_cons_self _ _
    · have hlt := dayLt_of_le_ne hct heq
      have hnext := nextDay_le_of_lt h hok hlt
      refine List.mem_cons_of_mem _
        (ih (nextDay cur) e (dayOk_next cur h) t ?_ hok hnext hte)
      have h2 := dayIdx_next cur h
      have h1 := dayLe_dayIdx h hct
      omega

lemma monthRange_chain : ∀ (n : Nat) (cur e : YM) (h : MonthOk cur),
    monthIdx e + 1 - monthIdx cur ≤ n →
    List.Chain' (fun a b => ∃ t : YM, MonthOk t ∧
      a = fmtMonthKey t.year t.month ∧
      b = fmtMonthKey (nextMonth t).year (nextMonth t).month)
      (monthRange cur e h) := by
  intro n
  induction n with
  | zero =>
    intro cur e h hn
    have hnle : ¬ ymLe cur e := fun hc => by
      have := ymLe_monthIdx h hc
      omega
    rw [monthRange, dif_neg hnle]
    exact List.chain'_nil
  | succ n ih =>
    intro cur e h hn
    rw [monthRange]
    by_cases hle : ymLe cur e
    · rw [dif_pos hle]
      have hidx := ymLe_monthIdx h hle
      have hnext := monthIdx_next cur
      refine List.chain'_cons'.mpr ⟨?_, ih (nextMonth cur) e (monthOk_next cur h)
        (by omega)⟩
      intro b hb
      rw [monthRange] at hb
      by_cases hle2 : ymLe (nextMonth cur) e
      · rw [dif_pos hle2] at hb
        simp only [List.head?_cons, Option.mem_def, Option.some.injEq] at hb
        subst hb
        exact ⟨cur, h, rfl, rfl⟩
      · rw [dif_neg hle2] at hb
        simp at hb
    · rw [dif_neg hle]
      exact List.chain'_nil

lemma dayRange_chain : ∀ (n : Nat) (cur e : PyDate) (h : DayOk cur),
    dayIdx e + 1 - dayIdx cur ≤ n →
    List.Chain' (fun a b => ∃ t : PyDate, DayOk t ∧
      a = fmtDayKey t.year t.month t.day ∧
      b = fmtDayKey (nextDay t).year (nextDay t).month (nextDay t).day)
      (dayRange cur e h) := by
  intro n
  induction n with
  | zero =>
    intro cur e h hn
    have hnle : ¬ dayLe cur e := fun hc => by
      have := dayLe_dayIdx h hc
      omega
    rw [dayRange, dif_neg hnle]
    exact List.chain'_nil
  | succ n ih =>
    intro cur e h hn
    rw [dayRange]
    by_cases hle : dayLe cur e
    · rw [dif_pos hle]
      have hidx := dayLe_dayIdx h hle
      have hnext := dayIdx_next cur h
      refine List.chain'_cons'.mpr ⟨?_, ih (nextDay cur) e (dayOk_next cur h)
        (by omega)⟩
      intro b hb
      rw [dayRange] at hb
      by_cases hle2 : dayLe (nextDay cur) e
      · rw [dif_pos hle2] at hb
        simp only [List.head?_cons, Option.mem_def, Option.some.injEq] at hb
        subst hb
        exact ⟨cur, h, rfl, rfl⟩
      · rw [dif_neg hle2] at hb
        simp at hb
    · rw [dif_neg hle]
      exact List.chain'_nil

/-- One timeline entry is exactly one calendar month after the previous. -/
def monthStep (a b : String) : Prop :=
  ∃ t : YM, MonthOk t ∧ a = fmtMonthKey t.year t.month ∧
    b = fmtMonthKey (nextMonth t).year (nextMonth t).month

/-- One timeline entry is exactly one calendar day after the previous. -/
def dayStep (a b : String) : Prop :=
  ∃ t : PyDate, DayOk t ∧ a = fmtDayKey t.year t.month t.day ∧
    b = fmtDayKey (nextDay t).year (nextDay t).month (nextDay t).day

instance (t : YM) : Decidable (MonthOk t) :=
  inferInstanceAs (Decidable (_ ∧ _))

instance (t : PyDate) : Decidable (DayOk t) :=
  inferInstanceAs (Decidable (_ ∧ _))

instance (t : YM) : Decidable (ValidYM t) :=
  inferInstanceAs (Decidable (_ ∧ _))

instance (t : PyDate) : Decidable (ValidDay t) :=
  inferInstanceAs (Decidable (_ ∧ _))

def build_monthly_timeline (data : List (List String)) : Option (List String) :=
  let allMonths := data.flatten.dedup
  if allMonths = [] then some []
  else
    match allMonths.mergeSort (fun a b => decide (a ≤ b)) with
    | [] => none
    | s0 :: rest =>
      match parseMonthKey s0,
            parseMonthKey ((s0 :: rest).getLast (List.cons_ne_nil s0 rest)) with
      | some st, some en =>
        if h : MonthOk st then some (monthRange st en h) else none
      | _, _ => none

def build_daily_timeline (data : List (List String)) : Option (List String) :=
  let allDays := data.flatten.dedup
  if allDays = [] then some []
  else
    match allDays.mergeSort (fun a b => decide (a ≤ b)) with
    | [] => none
    | s0 :: rest =>
      match parseDayKey s0,
            parseDayKey ((s0 :: rest).getLast (List.cons_ne_nil s0 rest)) with
      | some st, some en =>
        if h : DayOk st then some (dayRange st en h) else none
      | _, _ => none

lemma pairwise_mergeSort_le (l : List String) :
    (l.mergeSort (fun a b => decide (a ≤ b))).Pairwise (· ≤ ·) := by
  have h := @List.sorted_mergeSort String (fun a b : String => decide (a ≤ b))
    (fun a b c h1 h2 => by
      simp only [decide_eq_true_eq] at *
      exact le_trans h1 h2)
    (fun a b => by
      simp only [Bool.or_eq_true, decide_eq_true_eq]
      exact le_total a b) l
  exact h.imp (fun hab => by simpa using hab)

lemma pairwise_le_getLast : ∀ (l : List String), l.Pairwise (· ≤ ·) →
    ∀ (hne : l ≠ []) (x : String), x ∈ l → x ≤ l.getLast hne := by
  intro l
  induction l with
  | nil =>
    intro _ hne
    exact absurd rfl hne
  | cons a rest ih =>
    intro hp hne x hx
    cases rest with
    | nil =>
      rcases List.mem_singleton.mp hx with rfl
      simp [List.getLast]
    | cons b rest' =>
      have hgl : (a :: b :: rest').getLast hne =
          (b :: rest').getLast (List.cons_ne_nil b rest') := by
        rw [List.getLast_cons]
      rcases List.mem_cons.mp hx with rfl | hx
      · have hall := (List.pairwise_cons.mp hp).1
        rw [hgl]
        exact hall _ (List.getLast_mem _)
      · rw [hgl]
        exact ih (List.pairwise_cons.mp hp).2 (List.cons_ne_nil b rest') x hx

lemma build_monthly_spec (mdata : List (List String))
    (hm : ∀ k ∈ mdata.flatten,
      ∃ t : YM, ValidYM t ∧ k = fmtMonthKey t.year t.month) :
    ∃ mtl, build_monthly_timeline mdata = some mtl ∧
      (∀ k ∈ mdata.flatten, k ∈ mtl) ∧
      List.Chain' monthStep mtl ∧
      (mdata.flatten = [] → mtl = []) := by
  by_cases hemp : mdata.flatten.dedup = []
  · refine ⟨[], ?_, ?_, List.chain'_nil, fun _ => rfl⟩
    · rw [build_monthly_timeline]
      simp [hemp]
    · intro k hk
      exact absurd (List.mem_dedup.mpr hk) (by simp [hemp])
  · have hperm := List.mergeSort_perm mdata.flatten.dedup
      (fun a b : String => decide (a ≤ b))
    have hsne : mdata.flatten.dedup.mergeSort (fun a b => decide (a ≤ b)) ≠ [] := by
      intro hc
      rw [hc] at hperm
      exact hemp hperm.symm.eq_nil
    obtain ⟨s0, rest, hsort⟩ :
        ∃ s0 rest, mdata.flatten.dedup.mergeSort (fun a b => decide (a ≤ b)) =
          s0 :: rest := by
      cases hc : mdata.flatten.dedup.mergeSort (fun a b => decide (a ≤ b)) with
      | nil => exact absurd hc hsne
      | cons x xs => exact ⟨x, xs, rfl⟩
    have hmemsort : ∀ x, x ∈ s0 :: rest ↔ x ∈ mdata.flatten := by
      intro x
      rw [← hsort]
      rw [List.mem_mergeSort, List.mem_dedup]
    have hpw : (s0 :: rest).Pairwise (· ≤ ·) := by
      rw [← hsort]
      exact pairwise_mergeSort_le _
    set sl := (s0 :: rest).getLast (List.cons_ne_nil s0 rest) with hsl
    obtain ⟨t0, ht0, hs0eq⟩ := hm s0 ((hmemsort s0).mp (List.mem_cons_self _ _))
    obtain ⟨tl, htl, hsleq⟩ := hm sl
      ((hmemsort sl).mp (List.getLast_mem _))
    have hp0 : parseMonthKey s0 = some t0 := by
      rw [hs0eq]
      exact parseMonthKey_fmt t0 ht0
    have hpl : parseMonthKey sl = some tl := by
      rw [hsleq]
      exact parseMonthKey_fmt tl htl
    have hok0 : MonthOk t0 := ⟨ht0.2.2.1, ht0.2.2.2⟩
    have hbuild : build_monthly_timeline mdata = some (monthRange t0 tl hok0) := by
      unfold build_monthly_timeline
      simp only [if_neg hemp, hsort, ← hsl, hp0, hpl, dif_pos hok0]
    refine ⟨monthRange t0 tl hok0, hbuild, ?_, ?_, ?_⟩
    · intro k hk
      obtain ⟨t, ht, hkeq⟩ := hm k hk
      have hks : k ∈ s0 :: rest := (hmemsort k).mpr hk
      have hle0 : s0 ≤ k := by
        rcases List.mem_cons.mp hks with rfl | hks'
        · exact le_refl _
        · exact (List.pairwise_cons.mp hpw).1 k hks'
      have hlel : k ≤ sl := pairwise_le_getLast _ hpw _ k hks
      rw [hs0eq, hkeq] at hle0
      rw [hkeq, hsleq] at hlel
      have h0t : ymLe t0 t := (fmtMonthKey_le_iff ht0 ht).mp hle0
      have htl' : ymLe t tl := (fmtMonthKey_le_iff ht htl).mp hlel
      rw [hkeq]
      exact monthRange_mem (monthIdx tl + 1 - monthIdx t0) t0 tl hok0 t
        (le_refl _) ⟨ht.2.2.1, ht.2.2.2⟩ h0t htl'
    · exact monthRange_chain (monthIdx tl + 1 - monthIdx t0) t0 tl hok0
        (le_refl _)
    · intro hfl
      exact absurd (by simp [hfl]) hemp

lemma build_daily_spec (ddata : List (List String))
    (hd : ∀ k ∈ ddata.flatten,
      ∃ t : PyDate, ValidDay t ∧ k = fmtDayKey t.year t.month t.day) :
    ∃ dtl, build_daily_timeline ddata = some dtl ∧
      (∀ k ∈ ddata.flatten, k ∈ dtl) ∧
      List.Chain' dayStep dtl ∧
      (ddata.flatten = [] → dtl = []) := by
  by_cases hemp : ddata.flatten.dedup = []
  · refine ⟨[], ?_, ?_, List.chain'_nil, fun _ => rfl⟩
    · rw [build_daily_timeline]
      simp [hemp]
    · intro k hk
      exact absurd (List.mem_dedup.mpr hk) (by simp [hemp])
  · have hperm := List.mergeSort_perm ddata.flatten.dedup
      (fun a b : String => decide (a ≤ b))
    have hsne : ddata.flatten.dedup.mergeSort (fun a b => decide (a ≤ b)) ≠ [] := by
      intro hc
      rw [hc] at hperm
      exact hemp hperm.symm.eq_nil
    obtain ⟨s0, rest, hsort⟩ :
        ∃ s0 rest, ddata.flatten.dedup.mergeSort (fun a b => decide (a ≤ b)) =
          s0 :: rest := by
      cases hc : ddata.flatten.dedup.mergeSort (fun a b => decide (a ≤ b)) with
      | nil => exact absurd hc hsne
      | cons x xs => exact ⟨x, xs, rfl⟩
    have hmemsort : ∀ x, x ∈ s0 :: rest ↔ x ∈ ddata.flatten := by
      intro x
      rw [← hsort]
      rw [List.mem_mergeSort, List.mem_dedup]
    have hpw : (s0 :: rest).Pairwise (· ≤ ·) := by
      rw [← hsort]
      exact pairwise_mergeSort_le _
    set sl := (s0 :: rest).getLast (List.cons_ne_nil s0 rest) with hsl
    obtain ⟨t0, ht0, hs0eq⟩ := hd s0 ((hmemsort s0).mp (List.mem_cons_self _ _))
    obtain ⟨tl, htl, hsleq⟩ := hd sl
      ((hmemsort sl).mp (List.getLast_mem _))
    have hp0 : parseDayKey s0 = some t0 := by
      rw [hs0eq]
      exact parseDayKey_fmt t0 ht0
    have hpl : parseDayKey sl = some tl := by
      rw [hsleq]
      exact parseDayKey_fmt tl htl
    have hok0 : DayOk t0 := ht0.2.2
    have hbuild : build_daily_timeline ddata = some (dayRange t0 tl hok0) := by
      unfold build_daily_timeline
      simp only [if_neg hemp, hsort, ← hsl, hp0, hpl, dif_pos hok0]
    refine ⟨dayRange t0 tl hok0, hbuild, ?_, ?_, ?_⟩
    · intro k hk
      obtain ⟨t, ht, hkeq⟩ := hd k hk
      have hks : k ∈ s0 :: rest := (hmemsort k).mpr hk
      have hle0 : s0 ≤ k := by
        rcases List.mem_cons.mp hks with rfl | hks'
        · exact le_refl _
        · exact (List.pairwise_cons.mp hpw).1 k hks'
      have hlel : k ≤ sl := pairwise_le_getLast _ hpw _ k hks
      rw [hs0eq, hkeq] at hle0
      rw [hkeq, hsleq] at hlel
      have h0t : dayLe t0 t := (fmtDayKey_le_iff ht0 ht).mp hle0
      have htl' : dayLe t tl := (fmtDayKey_le_iff ht htl).mp hlel
      rw [hkeq]
      exact dayRange_mem (dayIdx tl + 1 - dayIdx t0) t0 tl hok0 t
        (le_refl _) ht.2.2 h0t htl'
    · exact dayRange_chain (dayIdx tl + 1 - dayIdx t0) t0 tl hok0 (le_refl _)
    · intro hfl
      exact absurd (by simp [hfl]) hemp

/-- C5: for families of bucket mappings whose keys are well-formed period
strings, `build_monthly_timeline` (resp. `build_daily_timeline`) succeeds and
returns a timeline containing every key present in any input bucket, whose
consecutive entries differ by exactly one calendar month (resp. day), and an
input with no keys at all yields the empty sequence. -/
theorem build_timelines_cover_contiguous (mdata ddata : List (List String))
    (hm : ∀ k ∈ mdata.flatten,
      ∃ t : YM, ValidYM t ∧ k = fmtMonthKey t.year t.month)
    (hd : ∀ k ∈ ddata.flatten,
      ∃ t : PyDate, ValidDay t ∧ k = fmtDayKey t.year t.month t.day) :
    (∃ mtl, build_monthly_timeline mdata = some mtl ∧
      (∀ k ∈ mdata.flatten, k ∈ mtl) ∧
      List.Chain' monthStep mtl ∧
      (mdata.flatten = [] → mtl = [])) ∧
    (∃ dtl, build_daily_timeline ddata = some dtl ∧
      (∀ k ∈ ddata.flatten, k ∈ dtl) ∧
      List.Chain' dayStep dtl ∧
      (ddata.flatten = [] → dtl = [])) :=
  ⟨build_monthly_spec mdata hm, build_daily_spec ddata hd⟩

/-- C5 witness: the timeline theorem applied to the concrete buckets
`{"2024-11", "2025-01"}` (monthly, spanning a year boundary) and
`{"2024-02-28", "2024-03-01"}` (daily, spanning a leap-February end). -/
theorem build_timelines_cover_contiguous_witness :
    (∃ mtl, build_monthly_timeline [["2024-11", "2025-01"]] = some mtl ∧
      (∀ k ∈ ([["2024-11", "2025-01"]] : List (List String)).flatten, k ∈ mtl) ∧
      List.Chain' monthStep mtl ∧
      (([["2024-11", "2025-01"]] : List (List String)).flatten = [] →
        mtl = [])) ∧
    (∃ dtl, build_daily_timeline [["2024-02-28", "2024-03-01"]] = some dtl ∧
      (∀ k ∈ ([["2024-02-28", "2024-03-01"]] : List (List String)).flatten,
        k ∈ dtl) ∧
      List.Chain' dayStep dtl ∧
      (([["2024-02-28", "2024-03-01"]] : List (List String)).flatten = [] →
        dtl = [])) := by
  apply build_timelines_cover_contiguous
  · intro k hk
    simp only [List.flatten_cons, List.flatten_nil, List.append_nil] at hk
    rcases List.mem_cons.mp hk with rfl | hk
    · exact ⟨⟨2024, 11⟩, by decide, by decide⟩
    · rcases List.mem_singleton.mp hk with rfl
      exact ⟨⟨2025, 1⟩, by decide, by decide⟩
  · intro k hk
    simp only [List.flatten_cons, List.flatten_nil, List.append_nil] at hk
    rcases List.mem_cons.mp hk with rfl | hk
    · exact ⟨⟨2024, 2, 28⟩, by decide, by decide⟩
    · rcases List.mem_singleton.mp hk with rfl
      exact ⟨⟨2024, 3, 1⟩, by decide, by decide⟩

end SubstackTracker


